import Mathlib

/-!
Shallow embedding of the `migrate` Go package (cognicraft/migrate):
the migration orchestrator (`src/migrator.go`), the SQLite-style persistence
adapter contract (`src/unnamed/part_001`), and the SQL statement splitter
(`src/unnamed/part_002`), together with theorems checking the natural-language
specification against this embedding.

Modelling conventions:
- machine integers are `Int`/`Nat` (Go `int64` overflow is made explicit where
  it matters, in `parseInt64`);
- Go errors are `String`s; functions that can fail return `Except String _`
  or pair their result with an `Option String` (`none` = nil error);
- the database is a `DBState`: the `migrations` history table, a flag for its
  existence, a logical clock standing in for `time.Now()`, and a ghost log
  `executed` recording every invocation of a migration's `Execute` callable
  (instrumentation used to observe "migration executed"; the Go code has no
  such field);
- a migration's `Execute` callable is abstracted by its outcome
  (`none` = no callable bound, `some none` = callable returns nil,
  `some (some e)` = callable returns error `e`); its side effects on
  application tables are outside the model;
- the persistence adapter (`Support`) is modelled by its effect on `DBState`
  plus per-operation fault injection (`Option String` error results), covering
  both the SQLite adapter (no faults) and an arbitrary failing adapter.
-/

namespace Migrate

/-- Status constants (src/migrator.go `StatusSuccess`/`StatusFailed`). -/
def StatusSuccess : String := "success"

/-- Status constant `failed`. -/
def StatusFailed : String := "failed"

/-- Type constant `Go`. -/
def TypeGo : String := "Go"

/-- Type constant `SQL`. -/
def TypeSQL : String := "SQL"

/-- Type constant `Baseline`. -/
def TypeBaseline : String := "Baseline"

/-- Version sentinel `VersionNone = ""` (src/migrator.go). -/
def VersionNone : String := ""

/-- Version sentinel `VersionRepeatable = "R"` (src/migrator.go). -/
def VersionRepeatable : String := "R"

/-- One row of the migration history / one registered migration
(src/migrator.go `Migration`). `exec` abstracts the `Execute` callable by its
outcome; history rows read back from the adapter carry `exec = none` (the
adapter never persists the callable). -/
structure Migration where
  rank : Int
  version : String
  description : String
  type : String
  checksum : String
  date : Nat
  executionTime : Nat
  status : String
  exec : Option (Option String)
  deriving DecidableEq, Repr

/-- Model of `Migration.IsRepeatable` (src/migrator.go line 234). -/
def Migration.IsRepeatable (m : Migration) : Bool :=
  m.version == VersionRepeatable

/-- Model of `Migration.String` (src/migrator.go line 238): the `fmt.Sprintf`
rendering used inside error messages. -/
def Migration.string (m : Migration) : String :=
  "@Migration|version=" ++ m.version ++ "|description=" ++ m.description ++
    "|type=" ++ m.type

/-- Decimal digit value, `none` on a non-digit. -/
def digitVal (c : Char) : Option Nat :=
  if '0' ≤ c ∧ c ≤ '9' then some (c.toNat - '0'.toNat) else none

/-- Accumulate a decimal number over a digit list; `none` on any non-digit. -/
def decDigitsAux : List Char → Nat → Option Nat
  | [], acc => some acc
  | c :: t, acc =>
    match digitVal c with
    | none => none
    | some d => decDigitsAux t (acc * 10 + d)

/-- Value of a non-empty all-digit list, `none` otherwise (Go `ParseUint`
syntax check for base 10). -/
def decDigits : List Char → Option Nat
  | [] => none
  | c :: t => decDigitsAux (c :: t) 0

/-- Largest `int64` value. -/
def int64Max : Int := 9223372036854775807

/-- Smallest `int64` value. -/
def int64Min : Int := -9223372036854775808

/-- Model of Go `strconv.ParseInt(s, 10, 64)` with the returned error ignored,
exactly as `LEQ` uses it (src/migrator.go line 267): a syntax error (empty
string, stray characters) yields 0, an out-of-range value is clamped to the
maximum-magnitude `int64` of its sign. -/
def parseInt64 (s : String) : Int :=
  let core : List Char → Int → Int := fun ds sign =>
    match decDigits ds with
    | none => 0
    | some n =>
      let v : Int := sign * (n : Int)
      if v > int64Max then int64Max else if v < int64Min then int64Min else v
  match s.data with
  | '+' :: rest => core rest 1
  | '-' :: rest => core rest (-1)
  | l => core l 1

/-- Model of `LEQ` (src/migrator.go line 267): numeric comparison of version strings
with parse errors silently coerced to 0. -/
def LEQ (a b : String) : Bool :=
  decide (parseInt64 a ≤ parseInt64 b)

/-- The database state: existence of the `migrations` table, its rows in
insertion (= rank) order, a ghost log of executed callables
(version, description), and a logical clock standing in for `time.Now()`. -/
structure DBState where
  tableExists : Bool
  history : List Migration
  executed : List (String × String)
  clock : Nat
  deriving DecidableEq, Repr

/-- Fault-injection view of the `Support` adapter contract
(src/migrator.go line 257): each operation either fails with the configured
error or performs its SQLite-adapter effect on `DBState`. -/
structure Support where
  existsErr : Option String
  createErr : Option String
  listErr : Option String
  recordErr : Option String
  cleanErr : Option String
  deriving DecidableEq, Repr

/-- The adapter with no injected faults (the happy-path SQLite adapter). -/
def noFaults : Support :=
  { existsErr := none, createErr := none, listErr := none, recordErr := none,
    cleanErr := none }

/-- Model of `Support.ExistsMigrationsTable`. -/
def ExistsMigrationsTable (sp : Support) (db : DBState) : Except String Bool :=
  match sp.existsErr with
  | some e => Except.error e
  | none => Except.ok db.tableExists

/-- Model of `Support.CreateMigrationsTable`. -/
def CreateMigrationsTable (sp : Support) (db : DBState) :
    Except String DBState :=
  match sp.createErr with
  | some e => Except.error e
  | none => Except.ok { db with tableExists := true }

/-- Model of `Support.ListMigrations`: yields the history rows in insertion order
(the SQLite adapter reads them back in rank order). -/
def ListMigrations (sp : Support) (db : DBState) :
    Except String (List Migration) :=
  match sp.listErr with
  | some e => Except.error e
  | none => Except.ok db.history

/-- Model of `Support.RecordMigration`: insert-only append of one history row
(the stored row carries no callable). -/
def RecordMigration (sp : Support) (db : DBState) (m : Migration) :
    Except String DBState :=
  match sp.recordErr with
  | some e => Except.error e
  | none => Except.ok { db with history := db.history ++ [{ m with exec := none }] }

/-- Model of `Support.Clean`: full schema wipe (drops the history table and its rows). -/
def CleanSupport (sp : Support) (db : DBState) : Except String DBState :=
  match sp.cleanErr with
  | some e => Except.error e
  | none => Except.ok { db with tableExists := false, history := [] }

/-- The migration registry held by a `Migrator` (src/migrator.go line 28):
the two append-only collections filled by `Add`. -/
structure Migrator where
  migrations : List Migration
  repeatable : List Migration
  deriving DecidableEq, Repr

/-- Model of `Migrator.Add` (src/migrator.go line 36). -/
def Migrator.Add (m : Migrator) (mig : Migration) : Migrator :=
  if mig.IsRepeatable then { m with repeatable := m.repeatable ++ [mig] }
  else { m with migrations := m.migrations ++ [mig] }

/-- Model of `Migrator.install` (src/migrator.go line 203). Returns the updated
database state together with the Go return value (`none` = nil error). Note
that on an execution failure the history row is still written and the
execution error returned, while a failing `RecordMigration` is escalated as
its own error string. -/
def install (sp : Support) (db : DBState) (mig : Migration) :
    DBState × Option String :=
  match mig.exec with
  | none => (db, some ("cannot execute migration: " ++ mig.string))
  | some res =>
    let mig1 := { mig with date := db.clock }
    let db1 := { db with
      clock := db.clock + 1,
      executed := db.executed ++ [(mig.version, mig.description)] }
    let mig2 := { mig1 with
      executionTime := 0,
      status := match res with | none => StatusSuccess | some _ => StatusFailed }
    match RecordMigration sp db1 mig2 with
    | Except.error rErr =>
      (db1, some ("record migration: " ++ mig2.string ++ ": " ++ rErr))
    | Except.ok db2 => (db2, res)

/-- The history scan at the top of `Migrator.Migrate`
(src/migrator.go lines 94-111): threads `rank`, `lastInstalled` and the
`checksumsRepeatable` map through the installed rows, aborting on a failed or
unknown-status sequential row. -/
def scanHistory : List Migration → Int → String → (String → Option String) →
    Except String (Int × String × (String → Option String))
  | [], rank, last, cs => Except.ok (rank, last, cs)
  | mig :: rest, _, last, cs =>
    if mig.IsRepeatable then
      scanHistory rest mig.rank last
        (fun d => if d = mig.description then some mig.checksum else cs d)
    else if mig.status = StatusFailed then
      Except.error ("detected a failed migration: " ++ mig.string)
    else if mig.status = StatusSuccess then
      scanHistory rest mig.rank mig.version cs
    else
      Except.error ("unknown status in migration: " ++ mig.string)

/-- The "install pending" loop of `Migrator.Migrate`
(src/migrator.go lines 113-123). Returns final state, final rank counter and
the first install error (`none` when the loop completed). -/
def installPending (sp : Support) :
    DBState → List Migration → Int → String → DBState × Int × Option String
  | db, [], rank, _ => (db, rank, none)
  | db, mig :: rest, rank, last =>
    if LEQ mig.version last then
      installPending sp db rest rank last
    else
      let r := install sp db { mig with rank := rank + 1 }
      match r.2 with
      | some e => (r.1, rank + 1, some e)
      | none => installPending sp r.1 rest (rank + 1) last

/-- The "install repeatable" loop of `Migrator.Migrate`
(src/migrator.go lines 125-135). -/
def installRepeatable (sp : Support) :
    DBState → List Migration → Int → (String → Option String) →
      DBState × Int × Option String
  | db, [], rank, _ => (db, rank, none)
  | db, mig :: rest, rank, cs =>
    if cs mig.description = some mig.checksum then
      installRepeatable sp db rest rank cs
    else
      let r := install sp db { mig with rank := rank + 1 }
      match r.2 with
      | some e => (r.1, rank + 1, some e)
      | none => installRepeatable sp r.1 rest (rank + 1) cs

/-- Body of `Migrator.Migrate` after the table-existence preamble
(src/migrator.go lines 90-136): read history, scan it, run both loops. -/
def migrateBody (sp : Support) (m : Migrator) (db : DBState) :
    DBState × Option String :=
  match ListMigrations sp db with
  | Except.error e => (db, some e)
  | Except.ok installed =>
    match scanHistory installed 0 VersionNone (fun _ => none) with
    | Except.error e => (db, some e)
    | Except.ok (rank, lastInstalled, checksumsRepeatable) =>
      let r := installPending sp db m.migrations rank lastInstalled
      match r.2.2 with
      | some e => (r.1, some e)
      | none =>
        let r2 := installRepeatable sp r.1 m.repeatable r.2.1 checksumsRepeatable
        (r2.1, r2.2.2)

/-- Table-existence preamble shared by `Migrate` and `Baseline`
(src/migrator.go lines 81-89 and 161-169). -/
def ensureTable (sp : Support) (db : DBState) : Except String DBState :=
  match ExistsMigrationsTable sp db with
  | Except.error e => Except.error e
  | Except.ok true => Except.ok db
  | Except.ok false => CreateMigrationsTable sp db

/-- Model of `Migrator.Migrate` (src/migrator.go line 80). -/
def Migrate (sp : Support) (m : Migrator) (db : DBState) :
    DBState × Option String :=
  match ensureTable sp db with
  | Except.error e => (db, some e)
  | Except.ok db1 => migrateBody sp m db1

/-- Model of `Migrator.Baseline` (src/migrator.go line 160). Note the faithful
reproduction of line 185: the error result of `RecordMigration` is discarded. -/
def Baseline (sp : Support) (m : Migrator) (db : DBState)
    (version description : String) : DBState × Option String :=
  match ensureTable sp db with
  | Except.error e => (db, some e)
  | Except.ok db1 =>
    match ListMigrations sp db1 with
    | Except.error e => (db1, some e)
    | Except.ok installed =>
      if installed.length > 0 then
        (db1, some ("unable to baseline: found existing migrations"))
      else
        let mig : Migration :=
          { rank := 1, version := version, description := description,
            type := TypeBaseline, checksum := "", date := db1.clock,
            executionTime := 0, status := StatusSuccess, exec := none }
        let db2 :=
          match RecordMigration sp db1 mig with
          | Except.error _ => db1
          | Except.ok d => d
        Migrate sp m db2

/-- Model of `Migrator.Clean` (src/migrator.go line 142): forwards to the adapter. -/
def Clean (sp : Support) (db : DBState) : DBState × Option String :=
  match CleanSupport sp db with
  | Except.error e => (db, some e)
  | Except.ok d => (d, none)

/-!
The SQL statement splitter (src/unnamed/part_002): `Statements` feeds the
script through `bufio.Scanner` line splitting and a `StatementBuilder`.
-/

/-- Go `unicode.IsSpace` (the `White_Space` code points), as used by
`strings.TrimSpace`. -/
def goIsSpace (c : Char) : Bool :=
  decide ((9 ≤ c.toNat ∧ c.toNat ≤ 13) ∨ c.toNat = 32 ∨ c.toNat = 133 ∨
    c.toNat = 160 ∨ c.toNat = 5760 ∨ (8192 ≤ c.toNat ∧ c.toNat ≤ 8202) ∨
    c.toNat = 8232 ∨ c.toNat = 8233 ∨ c.toNat = 8239 ∨ c.toNat = 8287 ∨
    c.toNat = 12288)

/-- Go `strings.TrimSpace`. -/
def goTrim (s : String) : String :=
  String.mk (((s.data.dropWhile goIsSpace).reverse.dropWhile goIsSpace).reverse)

/-- Boolean list-prefix test (structure of Go's byte-wise comparisons). -/
def prefixOfL : List Char → List Char → Bool
  | [], _ => true
  | _ :: _, [] => false
  | a :: as, b :: bs => (a == b) && prefixOfL as bs

/-- Substring containment: `pat` occurs somewhere in the second list. -/
def hasSub (pat : List Char) : List Char → Bool
  | [] => prefixOfL pat []
  | c :: t => prefixOfL pat (c :: t) || hasSub pat t

/-- Go `strings.HasSuffix s pat`. -/
def goHasSuffix (s pat : String) : Bool :=
  prefixOfL pat.data.reverse s.data.reverse

/-- The unanchored regular expression
`CREATE( TEMP| TEMPORARY)? TRIGGER.*` of `StatementBuilder.Append`
(src/unnamed/part_002 line 41): the line matches iff it contains one of the
three literal alternatives as a substring (the trailing `.*` is vacuous for
matching). -/
def matchCreateTrigger (line : String) : Bool :=
  hasSub ("CREATE TRIGGER").data line.data ||
  hasSub ("CREATE TEMP TRIGGER").data line.data ||
  hasSub ("CREATE TEMPORARY TRIGGER").data line.data

/-- Go `bufio.ScanLines`' dropCR: strip one trailing carriage return. -/
def dropCR (l : List Char) : List Char :=
  match l.getLast? with
  | some c => if c = '\x0d' then l.dropLast else l
  | none => l

/-- Line scanner accumulator: emit a line at each newline; at end of input
emit the remaining characters only when non-empty (no synthetic flush of an
empty final token), as `bufio.Scanner` with `ScanLines` does. -/
def linesAux : List Char → List Char → List String
  | [], cur => if cur.isEmpty then [] else [String.mk (dropCR cur.reverse)]
  | c :: rest, cur =>
    if c = '\x0a' then String.mk (dropCR cur.reverse) :: linesAux rest []
    else linesAux rest (c :: cur)

/-- The sequence of lines `bufio.Scanner`/`ScanLines` yields for a script.
(The scanner's maximum token size is not modelled.) -/
def goLines (s : String) : List String :=
  linesAux s.data []

/-- Model of `StatementBuilder` (src/unnamed/part_002 line 31); the `bytes.Buffer` is
a `String`. -/
structure StatementBuilder where
  createTrigger : Bool
  terminated : Bool
  buffer : String
  deriving DecidableEq, Repr

/-- Model of `NewStatementBuilder` (src/unnamed/part_002 line 25). -/
def NewStatementBuilder : StatementBuilder :=
  { createTrigger := false, terminated := false, buffer := "" }

/-- Model of `StatementBuilder.Append` (src/unnamed/part_002 line 37): trim the line,
decide trigger mode only while the buffer is still empty, join with a newline
otherwise, then recompute termination from the trimmed line's suffix. -/
def StatementBuilder.Append (b : StatementBuilder) (line : String) :
    StatementBuilder :=
  let line := goTrim line
  let ct := if b.buffer.data.isEmpty then matchCreateTrigger line
            else b.createTrigger
  let buf := if b.buffer.data.isEmpty then b.buffer ++ line
             else b.buffer ++ "\x0a" ++ line
  let term := if ct then goHasSuffix line ("END;") else goHasSuffix line (";")
  { createTrigger := ct, terminated := term, buffer := buf }

/-- Model of `StatementBuilder.Statement` (src/unnamed/part_002 line 60). -/
def StatementBuilder.Statement (b : StatementBuilder) : String :=
  b.buffer

/-- The scanning loop of `Statements` (src/unnamed/part_002 lines 15-21):
append each line, emit and reset whenever the builder reports termination;
anything left in the builder when the lines run out is dropped. -/
def StatementsAux : List String → StatementBuilder → List String
  | [], _ => []
  | l :: rest, b =>
    let b1 := b.Append l
    if b1.terminated then b1.Statement :: StatementsAux rest NewStatementBuilder
    else StatementsAux rest b1

/-- Model of `Statements` (src/unnamed/part_002 line 11). -/
def Statements (script : String) : List String :=
  StatementsAux (goLines script) NewStatementBuilder

/-!
Helper lemmas about the orchestrator.
-/

/-- A successful `ensureTable` preserves everything but the table flag, and
leaves the table existing. -/
lemma ensureTable_ok {sp : Support} {db db1 : DBState}
    (h : ensureTable sp db = Except.ok db1) :
    db1.history = db.history ∧ db1.executed = db.executed ∧
      db1.clock = db.clock ∧ db1.tableExists = true := by
  rcases he : sp.existsErr with _ | e
  · cases ht : db.tableExists
    · rcases hc : sp.createErr with _ | e2
      · simp only [ensureTable, ExistsMigrationsTable, CreateMigrationsTable,
          he, hc, ht] at h
        injection h with h
        rw [← h]
        simp
      · simp only [ensureTable, ExistsMigrationsTable, CreateMigrationsTable,
          he, hc, ht] at h
        exact Except.noConfusion h
    · simp only [ensureTable, ExistsMigrationsTable, he, ht] at h
      injection h with h
      rw [← h]
      exact ⟨rfl, rfl, rfl, ht⟩
  · simp only [ensureTable, ExistsMigrationsTable, he] at h
    exact Except.noConfusion h

/-- When the table already exists and the existence check cannot fail,
`ensureTable` is the identity. -/
lemma ensureTable_exists {sp : Support} {db : DBState}
    (he : sp.existsErr = none) (ht : db.tableExists = true) :
    ensureTable sp db = Except.ok db := by
  simp [ensureTable, ExistsMigrationsTable, he, ht]

/-- A history that contains a failed sequential row makes `scanHistory`
fail (with the "detected a failed migration" error or, if an unknown-status
sequential row precedes it, the "unknown status" error). -/
lemma scanHistory_error_of_failed :
    ∀ (h : List Migration) (rank : Int) (last : String)
      (cs : String → Option String),
      (∃ r ∈ h, r.IsRepeatable = false ∧ r.status = StatusFailed) →
      ∃ e, scanHistory h rank last cs = Except.error e := by
  intro h
  induction h with
  | nil =>
    intro rank last cs hex
    rcases hex with ⟨r, hr, _⟩
    exact absurd hr (List.not_mem_nil r)
  | cons a t ih =>
    intro rank last cs hex
    rcases hex with ⟨r, hr, hrep, hst⟩
    by_cases ha : a.IsRepeatable
    · simp only [scanHistory, ha, if_true]
      apply ih
      rcases List.mem_cons.mp hr with h1 | h1
      · rw [h1] at hrep
        rw [hrep] at ha
        exact absurd ha (by simp)
      · exact ⟨r, h1, hrep, hst⟩
    · rw [Bool.not_eq_true] at ha
      by_cases haf : a.status = StatusFailed
      · refine ⟨"detected a failed migration: " ++ a.string, ?_⟩
        simp [scanHistory, ha, haf]
      · by_cases has : a.status = StatusSuccess
        · simp only [scanHistory, ha, haf, has, Bool.false_eq_true, if_false,
            if_true]
          apply ih
          rcases List.mem_cons.mp hr with h1 | h1
          · rw [← h1] at haf
            exact absurd hst haf
          · exact ⟨r, h1, hrep, hst⟩
        · refine ⟨"unknown status in migration: " ++ a.string, ?_⟩
          simp [scanHistory, ha, haf, has]

/-- C2: for every registry and every adapter, a persisted history containing
a sequential (non-repeatable) record with status `failed` makes `Migrate`
return an error, execute no migration, and write no history record. -/
theorem C2_failed_history_blocks (sp : Support) (m : Migrator) (db : DBState)
    (hex : ∃ r ∈ db.history, r.IsRepeatable = false ∧ r.status = StatusFailed) :
    ((Migrate sp m db).2).isSome = true ∧
      (Migrate sp m db).1.history = db.history ∧
      (Migrate sp m db).1.executed = db.executed := by
  unfold Migrate
  cases hens : ensureTable sp db with
  | error e => simp
  | ok db1 =>
    obtain ⟨hh, hexe, _, _⟩ := ensureTable_ok hens
    unfold migrateBody
    cases hl : ListMigrations sp db1 with
    | error e => simp [hl, hh, hexe]
    | ok installed =>
      have hinst : installed = db.history := by
        unfold ListMigrations at hl
        rcases hle : sp.listErr with _ | e
        · rw [hle] at hl
          injection hl with hl
          rw [← hl, hh]
        · rw [hle] at hl
          exact Except.noConfusion hl
      obtain ⟨e, hscan⟩ :=
        scanHistory_error_of_failed installed 0 VersionNone (fun _ => none)
          (hinst ▸ hex)
      simp [hl, hscan, hh, hexe]

/-- Concrete registered migration for the C2 witness. -/
def c2Mig : Migration :=
  { rank := 0, version := "2", description := "a", type := TypeGo,
    checksum := "", date := 0, executionTime := 0, status := "",
    exec := some none }

/-- Concrete failed history record for the C2 witness. -/
def c2FailedRec : Migration :=
  { rank := 1, version := "1", description := "init", type := TypeSQL,
    checksum := "", date := 0, executionTime := 0, status := StatusFailed,
    exec := none }

/-- Concrete registry for the C2 witness. -/
def c2Registry : Migrator :=
  { migrations := [c2Mig], repeatable := [] }

/-- Concrete database with a failed sequential record, for the C2 witness. -/
def c2Db : DBState :=
  { tableExists := true, history := [c2FailedRec], executed := [], clock := 0 }

/-- C2 witness: the theorem applied at a concrete failed history. -/
theorem C2_witness :
    ((Migrate noFaults c2Registry c2Db).2).isSome = true ∧
      (Migrate noFaults c2Registry c2Db).1.history = c2Db.history ∧
      (Migrate noFaults c2Registry c2Db).1.executed = c2Db.executed :=
  C2_failed_history_blocks noFaults c2Registry c2Db (by decide)

/-- C6 (amended): when the callable fails and the history write also fails,
`install` returns the "record migration" persistence error, which carries the
adapter's error and the migration's identity rendering (version, description,
type) — but not the execution error's own message — and leaves the history
unchanged (the failed row was not persisted). -/
theorem C6_record_error_shape (sp : Support) (db : DBState) (mig : Migration)
    (e r : String) (hexec : mig.exec = some (some e))
    (hrec : sp.recordErr = some r) :
    (install sp db mig).2 =
      some ("record migration: " ++ mig.string ++ ": " ++ r) ∧
      (install sp db mig).1.history = db.history := by
  unfold install
  rw [hexec]
  simp only [RecordMigration, hrec]
  constructor
  · simp [Migration.string]
  · simp

/-- Concrete migration whose callable fails, for C6. -/
def c6Mig : Migration :=
  { rank := 0, version := "1", description := "d", type := TypeGo,
    checksum := "", date := 0, executionTime := 0, status := "",
    exec := some (some ("boom")) }

/-- Adapter whose history write fails, for C6. -/
def c6Sp : Support :=
  { noFaults with recordErr := some ("disk full") }

/-- Empty database, for C6. -/
def c6Db : DBState :=
  { tableExists := true, history := [], executed := [], clock := 0 }

/-- C6 counterexample: at a concrete input where the callable fails with
"boom" and the history write fails with "disk full", the error `install`
returns does not contain the execution error's message anywhere — the
original execution error is discarded, not wrapped. -/
theorem C6_counterexample :
    (install c6Sp c6Db c6Mig).2 =
        some ("record migration: @Migration|version=1|description=d|type=Go: disk full") ∧
      hasSub ("boom").data
        ("record migration: @Migration|version=1|description=d|type=Go: disk full").data
        = false := by
  constructor
  · decide
  · decide

/-- C6 witness: the amended theorem applied at the concrete input. -/
theorem C6_witness :
    (install c6Sp c6Db c6Mig).2 =
        some ("record migration: " ++ c6Mig.string ++ ": " ++ "disk full") ∧
      (install c6Sp c6Db c6Mig).1.history = c6Db.history :=
  C6_record_error_shape c6Sp c6Db c6Mig ("boom") ("disk full") (by decide)
    (by decide)

/-- Adapter whose history write fails, for C7. -/
def c7Sp : Support :=
  { noFaults with recordErr := some ("disk full") }

/-- Empty database, for C7. -/
def c7Db : DBState :=
  { tableExists := false, history := [], executed := [], clock := 0 }

/-- Empty registry, for C7. -/
def c7Registry : Migrator :=
  { migrations := [], repeatable := [] }

/-- C7: evaluation at the failing input. `Baseline` on an empty history with
an adapter whose `RecordMigration` fails returns nil and leaves the history
empty: the write error of the baseline record is silently discarded
(src/migrator.go line 185 ignores the error result), contradicting the claim
that adapter write failures are always propagated. -/
theorem C7_baseline_discards_write_error :
    (Baseline c7Sp c7Registry c7Db ("1") ("init")).2 = none ∧
      (Baseline c7Sp c7Registry c7Db ("1") ("init")).1.history = [] := by
  constructor
  · decide
  · decide

/-- Effect of `install` when the callable succeeds and the history write
succeeds: clock tick, execution logged, one success row appended. -/
lemma install_success_effect {sp : Support} (hrec : sp.recordErr = none)
    (db : DBState) (mig : Migration) (hexec : mig.exec = some none) :
    install sp db mig =
      ({ db with
          clock := db.clock + 1,
          executed := db.executed ++ [(mig.version, mig.description)],
          history := db.history ++
            [{ mig with
                date := db.clock,
                executionTime := 0,
                status := StatusSuccess,
                exec := none }] }, none) := by
  unfold install
  rw [hexec]
  simp [RecordMigration, hrec]

/-- Effect of `install` when the callable fails and the history write
succeeds: clock tick, execution logged, one failed row appended, the
execution error returned. -/
lemma install_fail_effect {sp : Support} (hrec : sp.recordErr = none)
    (db : DBState) (mig : Migration) (e : String)
    (hexec : mig.exec = some (some e)) :
    install sp db mig =
      ({ db with
          clock := db.clock + 1,
          executed := db.executed ++ [(mig.version, mig.description)],
          history := db.history ++
            [{ mig with
                date := db.clock,
                executionTime := 0,
                status := StatusFailed,
                exec := none }] }, some e) := by
  unfold install
  rw [hexec]
  simp [RecordMigration, hrec]

/-- Effect of `install` on a migration with no bound callable. -/
lemma install_noexec (sp : Support) (db : DBState) (mig : Migration)
    (h : mig.exec = none) :
    install sp db mig = (db, some ("cannot execute migration: " ++ mig.string)) := by
  unfold install
  rw [h]

/-- The ranks stored in a history, in order. -/
def ranks (h : List Migration) : List Int :=
  h.map (fun r => r.rank)

/-- The list `[k, k+1, ..., k+n-1]`. -/
def iota (k : Int) : Nat → List Int
  | 0 => []
  | n + 1 => k :: iota (k + 1) n

lemma iota_snoc (n : Nat) : ∀ k : Int, iota k (n + 1) = iota k n ++ [k + n] := by
  induction n with
  | zero =>
    intro k
    simp [iota]
  | succ m ih =>
    intro k
    rw [show m + 1 + 1 = (m + 1) + 1 from rfl, iota, ih (k + 1), iota]
    simp only [List.cons_append, List.cons.injEq, true_and]
    congr 2
    push_cast
    ring

lemma ranks_append (h : List Migration) (r : Migration) :
    ranks (h ++ [r]) = ranks h ++ [r.rank] := by
  simp [ranks]

/-- Rank invariant through the sequential loop: if the history's ranks are
exactly `1..len` and the rank counter equals the length, this persists, and
on a clean finish the counter again equals the length. -/
lemma installPending_ranks {sp : Support} (hrec : sp.recordErr = none) :
    ∀ (migs : List Migration) (db : DBState) (rank : Int) (last : String),
      ranks db.history = iota 1 db.history.length →
      rank = (db.history.length : Int) →
      (ranks (installPending sp db migs rank last).1.history =
          iota 1 (installPending sp db migs rank last).1.history.length ∧
        ((installPending sp db migs rank last).2.2 = none →
          (installPending sp db migs rank last).2.1 =
            ((installPending sp db migs rank last).1.history.length : Int))) := by
  intro migs
  induction migs with
  | nil =>
    intro db rank last h1 h2
    refine ⟨h1, fun _ => h2⟩
  | cons g rest ih =>
    intro db rank last h1 h2
    by_cases hle : LEQ g.version last = true
    · simp only [installPending, hle, if_true]
      exact ih db rank last h1 h2
    · simp only [installPending, hle, if_false, Bool.false_eq_true]
      have hlen : ranks (db.history ++
          [{ g with
              rank := rank + 1, date := db.clock, executionTime := 0,
              status := StatusSuccess, exec := none }]) =
          iota 1 (db.history ++
            [{ g with
                rank := rank + 1, date := db.clock, executionTime := 0,
                status := StatusSuccess, exec := none }]).length := by
        rw [ranks_append]
        simp only [List.length_append, List.length_cons, List.length_nil]
        rw [iota_snoc, h1]
        simp [h2]
        ring
      have hlenf : ranks (db.history ++
          [{ g with
              rank := rank + 1, date := db.clock, executionTime := 0,
              status := StatusFailed, exec := none }]) =
          iota 1 (db.history ++
            [{ g with
                rank := rank + 1, date := db.clock, executionTime := 0,
                status := StatusFailed, exec := none }]).length := by
        rw [ranks_append]
        simp only [List.length_append, List.length_cons, List.length_nil]
        rw [iota_snoc, h1]
        simp [h2]
        ring
      rcases hexec : g.exec with _ | res
      · rw [install_noexec sp db { g with rank := rank + 1, exec := none } rfl]
        exact ⟨h1, by intro hc; exact absurd hc (by simp)⟩
      · rcases res with _ | e
        · rw [install_success_effect hrec db { g with rank := rank + 1, exec := some none } rfl]
          simp only
          refine ih _ (rank + 1) last hlen ?_
          simp only [List.length_append, List.length_cons, List.length_nil]
          rw [h2]
          push_cast
          ring
        · rw [install_fail_effect hrec db { g with rank := rank + 1, exec := some (some e) } e rfl]
          simp only
          exact ⟨hlenf, by intro hc; exact absurd hc (by simp)⟩

/-- Rank invariant through the repeatable loop (same statement as for the
sequential loop). -/
lemma installRepeatable_ranks {sp : Support} (hrec : sp.recordErr = none) :
    ∀ (migs : List Migration) (db : DBState) (rank : Int)
      (cs : String → Option String),
      ranks db.history = iota 1 db.history.length →
      rank = (db.history.length : Int) →
      (ranks (installRepeatable sp db migs rank cs).1.history =
          iota 1 (installRepeatable sp db migs rank cs).1.history.length ∧
        ((installRepeatable sp db migs rank cs).2.2 = none →
          (installRepeatable sp db migs rank cs).2.1 =
            ((installRepeatable sp db migs rank cs).1.history.length : Int))) := by
  intro migs
  induction migs with
  | nil =>
    intro db rank cs h1 h2
    refine ⟨h1, fun _ => h2⟩
  | cons g rest ih =>
    intro db rank cs h1 h2
    by_cases hcs : cs g.description = some g.checksum
    · simp only [installRepeatable, hcs, if_true]
      exact ih db rank cs h1 h2
    · simp only [installRepeatable, hcs, if_false]
      have hlen : ranks (db.history ++
          [{ g with
              rank := rank + 1, date := db.clock, executionTime := 0,
              status := StatusSuccess, exec := none }]) =
          iota 1 (db.history ++
            [{ g with
                rank := rank + 1, date := db.clock, executionTime := 0,
                status := StatusSuccess, exec := none }]).length := by
        rw [ranks_append]
        simp only [List.length_append, List.length_cons, List.length_nil]
        rw [iota_snoc, h1]
        simp [h2]
        ring
      have hlenf : ranks (db.history ++
          [{ g with
              rank := rank + 1, date := db.clock, executionTime := 0,
              status := StatusFailed, exec := none }]) =
          iota 1 (db.history ++
            [{ g with
                rank := rank + 1, date := db.clock, executionTime := 0,
                status := StatusFailed, exec := none }]).length := by
        rw [ranks_append]
        simp only [List.length_append, List.length_cons, List.length_nil]
        rw [iota_snoc, h1]
        simp [h2]
        ring
      rcases hexec : g.exec with _ | res
      · rw [install_noexec sp db { g with rank := rank + 1, exec := none } rfl]
        exact ⟨h1, by intro hc; exact absurd hc (by simp)⟩
      · rcases res with _ | e
        · rw [install_success_effect hrec db { g with rank := rank + 1, exec := some none } rfl]
          simp only
          refine ih _ (rank + 1) cs hlen ?_
          simp only [List.length_append, List.length_cons, List.length_nil]
          rw [h2]
          push_cast
          ring
        · rw [install_fail_effect hrec db { g with rank := rank + 1, exec := some (some e) } e rfl]
          simp only
          exact ⟨hlenf, by intro hc; exact absurd hc (by simp)⟩

/-- C3: starting from an empty history, with every history write succeeding,
the ranks recorded by `Migrate` (sequential and repeatable loops combined,
one row per install attempt) are exactly `1, 2, ..., N` in install order,
where `N` is the number of rows written. -/
theorem C3_rank_sequence (sp : Support) (m : Migrator) (db : DBState)
    (hrec : sp.recordErr = none) (hh : db.history = []) :
    ranks (Migrate sp m db).1.history =
      iota 1 (Migrate sp m db).1.history.length := by
  unfold Migrate
  cases hens : ensureTable sp db with
  | error e => simp [hh, ranks, iota]
  | ok db1 =>
    obtain ⟨hh1, _, _, _⟩ := ensureTable_ok hens
    rw [hh] at hh1
    unfold migrateBody
    cases hl : ListMigrations sp db1 with
    | error e => simp [hl, hh1, ranks, iota]
    | ok installed =>
      have hinst : installed = [] := by
        unfold ListMigrations at hl
        rcases hle : sp.listErr with _ | e2
        · rw [hle] at hl
          injection hl with hl
          rw [← hl, hh1]
        · rw [hle] at hl
          exact Except.noConfusion hl
      rw [hinst] at hl
      simp only [hl, scanHistory]
      have hzero1 : ranks db1.history = iota 1 db1.history.length := by
        simp [hh1, ranks, iota]
      have hzero2 : (0 : Int) = (db1.history.length : Int) := by
        simp [hh1]
      have hp := installPending_ranks hrec m.migrations db1 0 VersionNone
        hzero1 hzero2
      cases hr1 : (installPending sp db1 m.migrations 0 VersionNone).2.2 with
      | some e => simpa only [hr1] using hp.1
      | none =>
        have hq := installRepeatable_ranks hrec m.repeatable
          (installPending sp db1 m.migrations 0 VersionNone).1
          (installPending sp db1 m.migrations 0 VersionNone).2.1
          (fun _ => none) hp.1 (hp.2 hr1)
        simpa only [hr1] using hq.1

/-- Concrete sequential migration for the C3 witness. -/
def c3Seq : Migration :=
  { rank := 0, version := "1", description := "a", type := TypeGo,
    checksum := "", date := 0, executionTime := 0, status := "",
    exec := some none }

/-- Concrete repeatable migration for the C3 witness. -/
def c3Rep : Migration :=
  { rank := 0, version := VersionRepeatable, description := "r1",
    type := TypeSQL, checksum := "abc", date := 0, executionTime := 0,
    status := "", exec := some none }

/-- Concrete registry for the C3 witness: one sequential and one repeatable
migration. -/
def c3Registry : Migrator :=
  { migrations := [c3Seq], repeatable := [c3Rep] }

/-- Concrete empty database for the C3 witness. -/
def c3Db : DBState :=
  { tableExists := false, history := [], executed := [], clock := 0 }

/-- C3 witness: the theorem applied at a concrete registry and empty
database. -/
theorem C3_witness :
    ranks (Migrate noFaults c3Registry c3Db).1.history =
      iota 1 (Migrate noFaults c3Registry c3Db).1.history.length :=
  C3_rank_sequence noFaults c3Registry c3Db (by decide) (by decide)

/-- The last checksum recorded for a repeatable description under scan order
("last one seen wins"), stated from the spec's description of
`repeatableChecksums`; the theorems below relate it to the map `scanHistory`
actually builds. -/
def lastRecordedChecksum : List Migration → String → Option String
  | [], _ => none
  | r :: t, d =>
    match lastRecordedChecksum t d with
    | some c => some c
    | none =>
      if r.IsRepeatable && r.description == d then some r.checksum else none

/-- A history whose sequential rows are all successful scans cleanly. -/
lemma scanHistory_ok_of_clean :
    ∀ (h : List Migration) (rank : Int) (last : String)
      (cs : String → Option String),
      (∀ r ∈ h, r.IsRepeatable = false → r.status = StatusSuccess) →
      ∃ p, scanHistory h rank last cs = Except.ok p := by
  intro h
  induction h with
  | nil =>
    intro rank last cs _
    exact ⟨(rank, last, cs), rfl⟩
  | cons a t ih =>
    intro rank last cs hclean
    by_cases ha : a.IsRepeatable
    · simp only [scanHistory, ha, if_true]
      exact ih a.rank last _ (fun r hr => hclean r (List.mem_cons_of_mem a hr))
    · rw [Bool.not_eq_true] at ha
      have has : a.status = StatusSuccess :=
        hclean a (List.mem_cons_self a t) ha
      have haf : ¬(a.status = StatusFailed) := by
        rw [has]
        decide
      simp only [scanHistory, ha, haf, has, Bool.false_eq_true, if_false,
        if_true]
      exact ih a.rank a.version cs (fun r hr => hclean r (List.mem_cons_of_mem a hr))

/-- The `checksumsRepeatable` map produced by a successful scan is the
"last one wins" per-description checksum overlayed on the initial map. -/
lemma scanHistory_cs_char :
    ∀ (h : List Migration) (rank : Int) (last : String)
      (cs : String → Option String) (p : Int × String × (String → Option String)),
      scanHistory h rank last cs = Except.ok p →
      ∀ d, p.2.2 d =
        match lastRecordedChecksum h d with
        | some x => some x
        | none => cs d := by
  intro h
  induction h with
  | nil =>
    intro rank last cs p hp d
    simp only [scanHistory] at hp
    injection hp with hp
    rw [← hp]
    simp [lastRecordedChecksum]
  | cons a t ih =>
    intro rank last cs p hp d
    by_cases ha : a.IsRepeatable
    · simp only [scanHistory, ha, if_true] at hp
      rw [ih a.rank last _ p hp d]
      cases hlrc : lastRecordedChecksum t d with
      | some x => simp [lastRecordedChecksum, hlrc]
      | none =>
        simp only [lastRecordedChecksum, hlrc]
        by_cases hd : d = a.description
        · rw [hd]
          simp [ha]
        · have hbeq : (a.description == d) = false := by
            rw [beq_eq_false_iff_ne]
            exact fun hc => hd hc.symm
          simp [hd, hbeq]
    · rw [Bool.not_eq_true] at ha
      by_cases haf : a.status = StatusFailed
      · simp [scanHistory, ha, haf] at hp
      · by_cases has : a.status = StatusSuccess
        · simp only [scanHistory, ha, haf, has, Bool.false_eq_true, if_false,
            if_true] at hp
          rw [ih a.rank a.version cs p hp d]
          cases hlrc : lastRecordedChecksum t d with
          | some x => simp [lastRecordedChecksum, hlrc]
          | none => simp [lastRecordedChecksum, hlrc, ha]
        · simp [scanHistory, ha, haf, has] at hp

/-- Under the fault-free adapter, the table preamble only sets the
existence flag. -/
lemma ensureTable_noFaults (db : DBState) :
    ensureTable noFaults db = Except.ok { db with tableExists := true } := by
  cases db with
  | mk te h ex c =>
    cases te
    · simp [ensureTable, ExistsMigrationsTable, CreateMigrationsTable, noFaults]
    · simp [ensureTable, ExistsMigrationsTable, noFaults]

/-- Under the fault-free adapter, `Migrate` is `migrateBody` after setting
the existence flag. -/
lemma Migrate_noFaults_eq (m : Migrator) (db : DBState) :
    Migrate noFaults m db =
      migrateBody noFaults m { db with tableExists := true } := by
  unfold Migrate
  rw [ensureTable_noFaults]

/-- C4: in `Migrate`'s repeatable loop, a registered repeatable migration is
installed (its callable runs and one row is appended) iff no checksum is
recorded in history for its description or the last recorded checksum for it
differs from the migration's current checksum; an unchanged script is
skipped. Stated for a registry holding that one repeatable migration, over
any cleanly-scanning history. -/
theorem C4_repeatable_gating (mig : Migration) (db : DBState)
    (hexec : mig.exec = some none)
    (hclean : ∀ r ∈ db.history, r.IsRepeatable = false → r.status = StatusSuccess) :
    (Migrate noFaults { migrations := [], repeatable := [mig] } db).2 = none ∧
      (Migrate noFaults { migrations := [], repeatable := [mig] } db).1.executed =
        (if lastRecordedChecksum db.history mig.description = some mig.checksum
          then db.executed
          else db.executed ++ [(mig.version, mig.description)]) ∧
      (Migrate noFaults { migrations := [], repeatable := [mig] } db).1.history.length =
        (if lastRecordedChecksum db.history mig.description = some mig.checksum
          then db.history.length
          else db.history.length + 1) := by
  cases db with
  | mk te hist ex c =>
    simp only at hclean
    rw [Migrate_noFaults_eq]
    unfold migrateBody
    simp only [ListMigrations, noFaults]
    obtain ⟨p, hscan⟩ :=
      scanHistory_ok_of_clean hist 0 VersionNone (fun _ => none) hclean
    rcases p with ⟨r0, l0, c0⟩
    have hchar :=
      scanHistory_cs_char hist 0 VersionNone (fun _ => none) (r0, l0, c0)
        hscan mig.description
    simp only at hchar
    have hc0 : c0 mig.description = lastRecordedChecksum hist mig.description := by
      rw [hchar]
      cases lastRecordedChecksum hist mig.description <;> rfl
    simp only [hscan, installPending]
    by_cases hg : lastRecordedChecksum hist mig.description = some mig.checksum
    · simp only [installRepeatable, hc0, hg, if_true]
      simp [hg]
    · simp only [installRepeatable, hc0, hg, if_false]
      rw [install_success_effect rfl _ { mig with rank := r0 + 1 } hexec]
      simp only [installRepeatable]
      simp [hg]

/-- Concrete repeatable migration for the C4 witness, with a changed script
checksum relative to the recorded one. -/
def c4Mig : Migration :=
  { rank := 0, version := VersionRepeatable, description := "view",
    type := TypeSQL, checksum := "new", date := 0, executionTime := 0,
    status := "", exec := some none }

/-- Concrete history row recording the old checksum, for the C4 witness. -/
def c4OldRec : Migration :=
  { rank := 1, version := VersionRepeatable, description := "view",
    type := TypeSQL, checksum := "old", date := 0, executionTime := 0,
    status := StatusSuccess, exec := none }

/-- Concrete database for the C4 witness. -/
def c4Db : DBState :=
  { tableExists := true, history := [c4OldRec], executed := [], clock := 3 }

/-- C4 witness: a changed checksum reinstalls (the register's checksum "new"
differs from the recorded "old"). -/
theorem C4_witness :
    (Migrate noFaults { migrations := [], repeatable := [c4Mig] } c4Db).2 = none ∧
      (Migrate noFaults { migrations := [], repeatable := [c4Mig] } c4Db).1.executed =
        (if lastRecordedChecksum c4Db.history c4Mig.description = some c4Mig.checksum
          then c4Db.executed
          else c4Db.executed ++ [(c4Mig.version, c4Mig.description)]) ∧
      (Migrate noFaults { migrations := [], repeatable := [c4Mig] } c4Db).1.history.length =
        (if lastRecordedChecksum c4Db.history c4Mig.description = some c4Mig.checksum
          then c4Db.history.length
          else c4Db.history.length + 1) :=
  C4_repeatable_gating c4Mig c4Db (by decide) (by decide)

/-- Through the sequential loop, when every registered callable succeeds and
history writes succeed, the loop finishes cleanly, executes exactly the
non-skipped migrations in order, and appends exactly one row per install. -/
lemma installPending_allOk {sp : Support} (hrec : sp.recordErr = none) :
    ∀ (migs : List Migration) (db : DBState) (rank : Int) (last : String),
      (∀ g ∈ migs, g.exec = some none) →
      ((installPending sp db migs rank last).2.2 = none ∧
        (installPending sp db migs rank last).1.executed =
          db.executed ++ (migs.filter (fun g => !(LEQ g.version last))).map
            (fun g => (g.version, g.description)) ∧
        (installPending sp db migs rank last).1.history.length =
          db.history.length +
            (migs.filter (fun g => !(LEQ g.version last))).length ∧
        (∃ L, (installPending sp db migs rank last).1.history =
          db.history ++ L)) := by
  intro migs
  induction migs with
  | nil =>
    intro db rank last _
    exact ⟨rfl, by simp [installPending], by simp [installPending],
      ⟨[], by simp [installPending]⟩⟩
  | cons g rest ih =>
    intro db rank last hexec
    have hg : g.exec = some none := hexec g (List.mem_cons_self g rest)
    have hrest : ∀ g' ∈ rest, g'.exec = some none :=
      fun g' hg' => hexec g' (List.mem_cons_of_mem g hg')
    by_cases hle : LEQ g.version last = true
    · simp only [installPending, hle, if_true]
      obtain ⟨h1, h2, h3, L, h4⟩ := ih db rank last hrest
      refine ⟨h1, ?_, ?_, ⟨L, h4⟩⟩
      · rw [h2]
        simp [List.filter_cons, hle]
      · rw [h3]
        simp [List.filter_cons, hle]
    · simp only [installPending, hle, if_false, Bool.false_eq_true]
      rw [install_success_effect hrec db { g with rank := rank + 1 } hg]
      simp only
      obtain ⟨h1, h2, h3, L, h4⟩ := ih _ (rank + 1) last hrest
      refine ⟨h1, ?_, ?_, ?_⟩
      · rw [h2]
        simp [List.filter_cons, hle]
      · rw [h3]
        simp only [List.length_append, List.length_cons, List.length_nil]
        rw [List.filter_cons]
        simp [hle]
        omega
      · refine ⟨{ g with
            rank := rank + 1, date := db.clock, executionTime := 0,
            status := StatusSuccess, exec := none } :: L, ?_⟩
        rw [h4]
        simp

/-- Evaluation of `ListMigrations` under the fault-free adapter. -/
lemma ListMigrations_noFaults (db : DBState) :
    ListMigrations noFaults db = Except.ok db.history := rfl

/-- Evaluation of `RecordMigration` under the fault-free adapter. -/
lemma RecordMigration_noFaults (db : DBState) (m : Migration) :
    RecordMigration noFaults db m =
      Except.ok { db with history := db.history ++ [{ m with exec := none }] } :=
  rfl

/-- The record `Baseline` synthesizes (src/migrator.go lines 177-184), with
the logical clock standing in for `time.Now()`. -/
def baseRec (v d : String) (c : Nat) : Migration :=
  { rank := 1, version := v, description := d, type := TypeBaseline,
    checksum := "", date := c, executionTime := 0, status := StatusSuccess,
    exec := none }

/-- C5: on a non-empty history `Baseline` fails with the "unable to baseline"
error and writes nothing; on an empty history it writes exactly one
baseline-marker success record at rank 1 with the given version and
description and runs the full `Migrate` flow, so registered sequential
migrations with version numerically at most the baseline version are skipped
and all others install. -/
theorem C5_baseline (m : Migrator) (db : DBState) (v d : String)
    (hv : v ≠ VersionRepeatable)
    (hrep : m.repeatable = [])
    (hexec : ∀ g ∈ m.migrations, g.exec = some none) :
    (db.history ≠ [] →
      (Baseline noFaults m db v d).2 =
          some ("unable to baseline: found existing migrations") ∧
        (Baseline noFaults m db v d).1.history = db.history ∧
        (Baseline noFaults m db v d).1.executed = db.executed) ∧
      (db.history = [] →
        (Baseline noFaults m db v d).2 = none ∧
          (Baseline noFaults m db v d).1.history.head? =
            some (baseRec v d db.clock) ∧
          (Baseline noFaults m db v d).1.history.length =
            1 + (m.migrations.filter (fun g => !(LEQ g.version v))).length ∧
          (Baseline noFaults m db v d).1.executed =
            db.executed ++
              (m.migrations.filter (fun g => !(LEQ g.version v))).map
                (fun g => (g.version, g.description))) := by
  cases db with
  | mk te hist ex c =>
    simp only
    unfold Baseline
    simp only [ensureTable_noFaults, ListMigrations_noFaults]
    constructor
    · intro hne
      have hlen : 0 < hist.length := List.length_pos.mpr hne
      simp [hlen]
    · intro he
      subst he
      simp only [List.length_nil, gt_iff_lt, lt_self_iff_false, if_false]
      simp only [RecordMigration_noFaults]
      rw [Migrate_noFaults_eq]
      unfold migrateBody
      simp only [ListMigrations_noFaults]
      have hbeq : ((v == VersionRepeatable) : Bool) = false :=
        beq_eq_false_iff_ne.mpr hv
      have hscan : scanHistory [baseRec v d c] 0 VersionNone (fun _ => none) =
          Except.ok (1, v, fun _ => none) := by
        unfold scanHistory baseRec Migration.IsRepeatable
        simp [hbeq, StatusSuccess, StatusFailed]
        rfl
      obtain ⟨h1, h2, h3, L, h4⟩ :=
        @installPending_allOk noFaults rfl m.migrations
          ⟨true, [baseRec v d c], ex, c⟩ 1 v hexec
      simp only [baseRec] at h1 h2 h3 h4
      simp only [baseRec] at hscan
      simp only [List.nil_append, hscan, h1]
      rw [hrep]
      simp only [installRepeatable]
      refine ⟨trivial, ?_, ?_, ?_⟩
      · rw [h4]
        simp [baseRec]
      · rw [h3]
        simp
      · exact h2

/-- Concrete migrations for the C5 witness. -/
def c5MigA : Migration :=
  { rank := 0, version := "1", description := "a", type := TypeGo,
    checksum := "", date := 0, executionTime := 0, status := "",
    exec := some none }

/-- Second concrete migration for the C5 witness. -/
def c5MigB : Migration :=
  { rank := 0, version := "2", description := "b", type := TypeGo,
    checksum := "", date := 0, executionTime := 0, status := "",
    exec := some none }

/-- Concrete registry for the C5 witness. -/
def c5Registry : Migrator :=
  { migrations := [c5MigA, c5MigB], repeatable := [] }

/-- Concrete empty database for the C5 witness. -/
def c5Db : DBState :=
  { tableExists := false, history := [], executed := [], clock := 5 }

/-- C5 witness: baselining an empty database at version "1" with versions
"1" and "2" registered — "1" is skipped, "2" installs. -/
theorem C5_witness :
    (c5Db.history ≠ [] →
      (Baseline noFaults c5Registry c5Db ("1") ("base")).2 =
          some ("unable to baseline: found existing migrations") ∧
        (Baseline noFaults c5Registry c5Db ("1") ("base")).1.history = c5Db.history ∧
        (Baseline noFaults c5Registry c5Db ("1") ("base")).1.executed = c5Db.executed) ∧
      (c5Db.history = [] →
        (Baseline noFaults c5Registry c5Db ("1") ("base")).2 = none ∧
          (Baseline noFaults c5Registry c5Db ("1") ("base")).1.history.head? =
            some (baseRec ("1") ("base") c5Db.clock) ∧
          (Baseline noFaults c5Registry c5Db ("1") ("base")).1.history.length =
            1 + (c5Registry.migrations.filter
              (fun g => !(LEQ g.version ("1")))).length ∧
          (Baseline noFaults c5Registry c5Db ("1") ("base")).1.executed =
            c5Db.executed ++
              (c5Registry.migrations.filter (fun g => !(LEQ g.version ("1")))).map
                (fun g => (g.version, g.description))) :=
  C5_baseline c5Registry c5Db ("1") ("base") (by decide) (by decide)
    (by decide)

/-- Effect of `install` when a callable is bound but the history write
fails: the execution is logged, no row is appended, and the escalated
"record migration" error is returned. -/
lemma install_recordFail_effect {sp : Support} {r : String}
    (hrec : sp.recordErr = some r) (db : DBState) (mig : Migration)
    (res : Option String) (hexec : mig.exec = some res) :
    install sp db mig =
      ({ db with
          clock := db.clock + 1,
          executed := db.executed ++ [(mig.version, mig.description)] },
        some ("record migration: " ++ mig.string ++ ": " ++ r)) := by
  cases res with
  | none =>
    unfold install
    rw [hexec]
    simp [RecordMigration, hrec, Migration.string]
  | some e =>
    unfold install
    rw [hexec]
    simp [RecordMigration, hrec, Migration.string]

/-- If every successful sequential row has a non-negative parsed version and
the incoming `lastInstalled` parses non-negative, so does the scan's final
`lastInstalled`. -/
lemma scanHistory_last_nonneg :
    ∀ (h : List Migration) (rank : Int) (last : String)
      (cs : String → Option String) (p : Int × String × (String → Option String)),
      scanHistory h rank last cs = Except.ok p →
      (∀ r ∈ h, r.IsRepeatable = false → r.status = StatusSuccess →
        0 ≤ parseInt64 r.version) →
      0 ≤ parseInt64 last →
      0 ≤ parseInt64 p.2.1 := by
  intro h
  induction h with
  | nil =>
    intro rank last cs p hp hh hl
    simp only [scanHistory] at hp
    injection hp with hp
    rw [← hp]
    exact hl
  | cons a t ih =>
    intro rank last cs p hp hh hl
    by_cases ha : a.IsRepeatable
    · simp only [scanHistory, ha, if_true] at hp
      exact ih a.rank last _ p hp
        (fun r hr => hh r (List.mem_cons_of_mem a hr)) hl
    · rw [Bool.not_eq_true] at ha
      by_cases haf : a.status = StatusFailed
      · simp [scanHistory, ha, haf] at hp
      · by_cases has : a.status = StatusSuccess
        · simp only [scanHistory, ha, haf, has, Bool.false_eq_true, if_false,
            if_true] at hp
          exact ih a.rank a.version cs p hp
            (fun r hr => hh r (List.mem_cons_of_mem a hr))
            (hh a (List.mem_cons_self a t) ha has)
        · simp [scanHistory, ha, haf, has] at hp

/-- Everything the sequential loop executes or records, beyond what was
already there, has a version parsing strictly above the (non-negative)
`lastInstalled` bound — in particular strictly positive. -/
lemma installPending_mem (sp : Support) :
    ∀ (migs : List Migration) (db : DBState) (rank : Int) (last : String),
      0 ≤ parseInt64 last →
      ((∀ e ∈ (installPending sp db migs rank last).1.executed,
          e ∈ db.executed ∨ 0 < parseInt64 e.1) ∧
        (∀ r ∈ (installPending sp db migs rank last).1.history,
          r ∈ db.history ∨ 0 < parseInt64 r.version)) := by
  intro migs
  induction migs with
  | nil =>
    intro db rank last _
    exact ⟨fun e he => Or.inl he, fun r hr => Or.inl hr⟩
  | cons g rest ih =>
    intro db rank last hl
    by_cases hle : LEQ g.version last = true
    · simp only [installPending, hle, if_true]
      exact ih db rank last hl
    · have hgpos : 0 < parseInt64 g.version := by
        have : ¬ (parseInt64 g.version ≤ parseInt64 last) := by
          intro hc
          exact hle (by simp [LEQ, hc])
        omega
      simp only [installPending, hle, if_false, Bool.false_eq_true]
      rcases hexec : g.exec with _ | res
      · rw [install_noexec sp db { g with rank := rank + 1, exec := none } rfl]
        exact ⟨fun e he => Or.inl he, fun r hr => Or.inl hr⟩
      · rcases hrec : sp.recordErr with _ | rerr
        · rcases res with _ | e
          · rw [install_success_effect hrec db
              { g with rank := rank + 1, exec := some none } rfl]
            simp only
            obtain ⟨ih1, ih2⟩ := ih _ (rank + 1) last hl
            refine ⟨fun e he => ?_, fun r hr => ?_⟩
            · rcases ih1 e he with h | h
              · rcases List.mem_append.mp h with h' | h'
                · exact Or.inl h'
                · simp only [List.mem_singleton] at h'
                  rw [h']
                  exact Or.inr hgpos
              · exact Or.inr h
            · rcases ih2 r hr with h | h
              · rcases List.mem_append.mp h with h' | h'
                · exact Or.inl h'
                · simp only [List.mem_singleton] at h'
                  rw [h']
                  exact Or.inr hgpos
              · exact Or.inr h
          · rw [install_fail_effect hrec db
              { g with rank := rank + 1, exec := some (some e) } e rfl]
            simp only
            refine ⟨fun e' he' => ?_, fun r hr => ?_⟩
            · rcases List.mem_append.mp he' with h' | h'
              · exact Or.inl h'
              · simp only [List.mem_singleton] at h'
                rw [h']
                exact Or.inr hgpos
            · rcases List.mem_append.mp hr with h' | h'
              · exact Or.inl h'
              · simp only [List.mem_singleton] at h'
                rw [h']
                exact Or.inr hgpos
        · rw [install_recordFail_effect hrec db
            { g with rank := rank + 1, exec := some res } res rfl]
          simp only
          refine ⟨fun e' he' => ?_, fun r hr => Or.inl hr⟩
          rcases List.mem_append.mp he' with h' | h'
          · exact Or.inl h'
          · simp only [List.mem_singleton] at h'
            rw [h']
            exact Or.inr hgpos

/-- Everything the repeatable loop executes or records, beyond what was
already there, is repeatable (its version is the repeatable sentinel). -/
lemma installRepeatable_mem (sp : Support) :
    ∀ (migs : List Migration) (db : DBState) (rank : Int)
      (cs : String → Option String),
      (∀ g ∈ migs, g.IsRepeatable = true) →
      ((∀ e ∈ (installRepeatable sp db migs rank cs).1.executed,
          e ∈ db.executed ∨ e.1 = VersionRepeatable) ∧
        (∀ r ∈ (installRepeatable sp db migs rank cs).1.history,
          r ∈ db.history ∨ r.IsRepeatable = true)) := by
  intro migs
  induction migs with
  | nil =>
    intro db rank cs _
    exact ⟨fun e he => Or.inl he, fun r hr => Or.inl hr⟩
  | cons g rest ih =>
    intro db rank cs hrep
    have hgv : g.version = VersionRepeatable := by
      have := hrep g (List.mem_cons_self g rest)
      simpa [Migration.IsRepeatable] using this
    have hrest : ∀ g' ∈ rest, g'.IsRepeatable = true :=
      fun g' hg' => hrep g' (List.mem_cons_of_mem g hg')
    by_cases hcs : cs g.description = some g.checksum
    · simp only [installRepeatable, hcs, if_true]
      exact ih db rank cs hrest
    · simp only [installRepeatable, hcs, if_false]
      rcases hexec : g.exec with _ | res
      · rw [install_noexec sp db { g with rank := rank + 1, exec := none } rfl]
        exact ⟨fun e he => Or.inl he, fun r hr => Or.inl hr⟩
      · rcases hrec : sp.recordErr with _ | rerr
        · rcases res with _ | e
          · rw [install_success_effect hrec db
              { g with rank := rank + 1, exec := some none } rfl]
            simp only
            obtain ⟨ih1, ih2⟩ := ih _ (rank + 1) cs hrest
            refine ⟨fun e he => ?_, fun r hr => ?_⟩
            · rcases ih1 e he with h | h
              · rcases List.mem_append.mp h with h' | h'
                · exact Or.inl h'
                · simp only [List.mem_singleton] at h'
                  rw [h']
                  exact Or.inr hgv
              · exact Or.inr h
            · rcases ih2 r hr with h | h
              · rcases List.mem_append.mp h with h' | h'
                · exact Or.inl h'
                · simp only [List.mem_singleton] at h'
                  rw [h']
                  exact Or.inr (by simp [Migration.IsRepeatable, hgv])
              · exact Or.inr h
          · rw [install_fail_effect hrec db
              { g with rank := rank + 1, exec := some (some e) } e rfl]
            simp only
            refine ⟨fun e' he' => ?_, fun r hr => ?_⟩
            · rcases List.mem_append.mp he' with h' | h'
              · exact Or.inl h'
              · simp only [List.mem_singleton] at h'
                rw [h']
                exact Or.inr hgv
            · rcases List.mem_append.mp hr with h' | h'
              · exact Or.inl h'
              · simp only [List.mem_singleton] at h'
                rw [h']
                exact Or.inr (by simp [Migration.IsRepeatable, hgv])
        · rw [install_recordFail_effect hrec db
            { g with rank := rank + 1, exec := some res } res rfl]
          simp only
          refine ⟨fun e' he' => ?_, fun r hr => Or.inl hr⟩
          rcases List.mem_append.mp he' with h' | h'
          · exact Or.inl h'
          · simp only [List.mem_singleton] at h'
            rw [h']
            exact Or.inr hgv

/-- C10 (amended): against any history whose successful sequential records
all have versions parsing non-negative — in particular a completely empty
history — `Migrate` never executes or records a registered sequential
migration whose version parses to a value at most 0 ("0", negative numbers
and all non-numeric strings included): everything new in the execution log
or the history is repeatable or has a version parsing strictly positive. -/
theorem C10_nonpositive_versions (sp : Support) (m : Migrator) (db : DBState)
    (hrep : ∀ g ∈ m.repeatable, g.IsRepeatable = true)
    (hhist : ∀ r ∈ db.history, r.IsRepeatable = false →
      r.status = StatusSuccess → 0 ≤ parseInt64 r.version) :
    (∀ e ∈ (Migrate sp m db).1.executed,
        e ∈ db.executed ∨ e.1 = VersionRepeatable ∨ 0 < parseInt64 e.1) ∧
      (∀ r ∈ (Migrate sp m db).1.history,
        r ∈ db.history ∨ r.IsRepeatable = true ∨ 0 < parseInt64 r.version) := by
  unfold Migrate
  cases hens : ensureTable sp db with
  | error e =>
    exact ⟨fun e' he' => Or.inl he', fun r hr => Or.inl hr⟩
  | ok db1 =>
    obtain ⟨hh, hexe, _, _⟩ := ensureTable_ok hens
    unfold migrateBody
    cases hl : ListMigrations sp db1 with
    | error e =>
      simp only [hl]
      rw [hh, hexe]
      exact ⟨fun e' he' => Or.inl he', fun r hr => Or.inl hr⟩
    | ok installed =>
      have hinst : installed = db.history := by
        unfold ListMigrations at hl
        rcases hle : sp.listErr with _ | e2
        · rw [hle] at hl
          injection hl with hl
          rw [← hl, hh]
        · rw [hle] at hl
          exact Except.noConfusion hl
      simp only [hl]
      cases hscan : scanHistory installed 0 VersionNone (fun _ => none) with
      | error e =>
        simp only
        rw [hh, hexe]
        exact ⟨fun e' he' => Or.inl he', fun r hr => Or.inl hr⟩
      | ok p =>
        rcases p with ⟨r0, l0, c0⟩
        simp only
        have hl0 : 0 ≤ parseInt64 l0 := by
          have := scanHistory_last_nonneg installed 0 VersionNone
            (fun _ => none) (r0, l0, c0) hscan
            (by rw [hinst]; exact hhist) (by decide)
          simpa using this
        obtain ⟨hp1, hp2⟩ := installPending_mem sp m.migrations db1 r0 l0 hl0
        cases hr1 : (installPending sp db1 m.migrations r0 l0).2.2 with
        | some e =>
          simp only [hr1]
          refine ⟨fun e' he' => ?_, fun r hr => ?_⟩
          · rcases hp1 e' he' with h | h
            · exact Or.inl (hexe ▸ h)
            · exact Or.inr (Or.inr h)
          · rcases hp2 r hr with h | h
            · exact Or.inl (hh ▸ h)
            · exact Or.inr (Or.inr h)
        | none =>
          simp only [hr1]
          obtain ⟨hq1, hq2⟩ := installRepeatable_mem sp m.repeatable
            (installPending sp db1 m.migrations r0 l0).1
            (installPending sp db1 m.migrations r0 l0).2.1 c0 hrep
          refine ⟨fun e' he' => ?_, fun r hr => ?_⟩
          · rcases hq1 e' he' with h | h
            · rcases hp1 e' h with h2 | h2
              · exact Or.inl (hexe ▸ h2)
              · exact Or.inr (Or.inr h2)
            · exact Or.inr (Or.inl h)
          · rcases hq2 r hr with h | h
            · rcases hp2 r h with h2 | h2
              · exact Or.inl (hh ▸ h2)
              · exact Or.inr (Or.inr h2)
            · exact Or.inr (Or.inl h)

/-- Concrete migration with a negative version, for C10. -/
def c10Mig : Migration :=
  { rank := 0, version := "-5", description := "m1", type := TypeGo,
    checksum := "", date := 0, executionTime := 0, status := "",
    exec := some none }

/-- Concrete registry for C10. -/
def c10Registry : Migrator :=
  { migrations := [c10Mig], repeatable := [] }

/-- Concrete history containing a successful sequential record whose version
parses negative (such a record is reachable through `Baseline` at version
"-10" on an empty database), for C10. -/
def c10NegRec : Migration :=
  { rank := 1, version := "-10", description := "b", type := TypeBaseline,
    checksum := "", date := 0, executionTime := 0, status := StatusSuccess,
    exec := none }

/-- Concrete database for the C10 counterexample. -/
def c10Db : DBState :=
  { tableExists := true, history := [c10NegRec], executed := [], clock := 0 }

/-- C10 counterexample: a sequential migration whose version parses to -5
(at most 0) IS installed by `Migrate` when the history's last successful
sequential version parses to -10, refuting "never installed" as stated. -/
theorem C10_counterexample :
    parseInt64 c10Mig.version ≤ 0 ∧
      (Migrate noFaults c10Registry c10Db).2 = none ∧
      (Migrate noFaults c10Registry c10Db).1.executed =
        [(c10Mig.version, c10Mig.description)] ∧
      (Migrate noFaults c10Registry c10Db).1.history.length = 2 := by
  refine ⟨by decide, by decide, by decide, by decide⟩

/-- Concrete registry with a zero and a non-numeric version, for the C10
witness. -/
def c10wRegistry : Migrator :=
  { migrations := [{ c10Mig with version := "0" },
      { c10Mig with version := "abc" }], repeatable := [] }

/-- Concrete empty database for the C10 witness. -/
def c10wDb : DBState :=
  { tableExists := true, history := [], executed := [], clock := 0 }

/-- C10 witness: the amended theorem applied to versions "0" and "abc"
against an empty history. -/
theorem C10_witness :
    (∀ e ∈ (Migrate noFaults c10wRegistry c10wDb).1.executed,
        e ∈ c10wDb.executed ∨ e.1 = VersionRepeatable ∨ 0 < parseInt64 e.1) ∧
      (∀ r ∈ (Migrate noFaults c10wRegistry c10wDb).1.history,
        r ∈ c10wDb.history ∨ r.IsRepeatable = true ∨ 0 < parseInt64 r.version) :=
  C10_nonpositive_versions noFaults c10wRegistry c10wDb (by decide) (by decide)

/-- A Boolean prefix extends over an appended tail. -/
lemma prefixOfL_append (p : List Char) :
    ∀ (l t : List Char), prefixOfL p l = true → prefixOfL p (l ++ t) = true := by
  induction p with
  | nil =>
    intro l t _
    rfl
  | cons a as ih =>
    intro l t hp
    cases l with
    | nil => exact absurd hp (by simp [prefixOfL])
    | cons b bs =>
      simp only [prefixOfL, Bool.and_eq_true] at hp
      simp only [List.cons_append, prefixOfL, Bool.and_eq_true]
      exact ⟨hp.1, ih bs t hp.2⟩

/-- A Boolean prefix of length at least one yields the one-element prefix. -/
lemma prefixOfL_head (a : Char) (as l : List Char)
    (h : prefixOfL (a :: as) l = true) : prefixOfL [a] l = true := by
  cases l with
  | nil => exact absurd h (by simp [prefixOfL])
  | cons b bs =>
    simp only [prefixOfL, Bool.and_eq_true] at h
    simp [prefixOfL, h.1]

/-- A string suffix survives prepending. -/
lemma goHasSuffix_append (x y pat : String)
    (h : goHasSuffix y pat = true) : goHasSuffix (x ++ y) pat = true := by
  unfold goHasSuffix at h ⊢
  rw [String.data_append, List.reverse_append]
  exact prefixOfL_append _ _ _ h

/-- A string ending in `END;` ends in `;`. -/
lemma goHasSuffix_semi_of_end (s : String)
    (h : goHasSuffix s ("END;") = true) : goHasSuffix s (";") = true := by
  unfold goHasSuffix at h ⊢
  exact prefixOfL_head _ _ _ h

/-- Characters of a trimmed string come from the original. -/
lemma mem_goTrim {ch : Char} {s : String} (h : ch ∈ (goTrim s).data) :
    ch ∈ s.data := by
  unfold goTrim at h
  simp only [List.mem_reverse] at h
  have h1 := List.dropWhile_sublist (l := (s.data.dropWhile goIsSpace).reverse)
    (p := goIsSpace)
  have h2 := h1.subset h
  rw [List.mem_reverse] at h2
  exact (List.dropWhile_sublist (l := s.data) (p := goIsSpace)).subset h2

/-- Characters of a `dropCR`ed line come from the original. -/
lemma mem_dropCR {ch : Char} {l : List Char} (h : ch ∈ dropCR l) : ch ∈ l := by
  unfold dropCR at h
  rcases hl : l.getLast? with _ | c
  · simp only [hl] at h
    exact h
  · simp only [hl] at h
    by_cases hc : c = '\x0d'
    · rw [if_pos hc] at h
      exact List.mem_of_mem_dropLast h
    · rw [if_neg hc] at h
      exact h

/-- Lines produced by the scanner contain no newline character. -/
lemma linesAux_no_newline :
    ∀ (cs cur : List Char), (∀ ch ∈ cur, ch ≠ '\x0a') →
      ∀ l ∈ linesAux cs cur, ∀ ch ∈ l.data, ch ≠ '\x0a' := by
  intro cs
  induction cs with
  | nil =>
    intro cur hcur l hl ch hch
    simp only [linesAux] at hl
    by_cases hc : cur.isEmpty
    · rw [if_pos hc] at hl
      exact absurd hl (List.not_mem_nil l)
    · rw [if_neg hc] at hl
      simp only [List.mem_singleton] at hl
      rw [hl] at hch
      have : ch ∈ cur.reverse := mem_dropCR hch
      rw [List.mem_reverse] at this
      exact hcur ch this
  | cons c rest ih =>
    intro cur hcur l hl ch hch
    simp only [linesAux] at hl
    by_cases hc : c = '\x0a'
    · rw [if_pos hc] at hl
      rcases List.mem_cons.mp hl with h1 | h1
      · rw [h1] at hch
        have : ch ∈ cur.reverse := mem_dropCR hch
        rw [List.mem_reverse] at this
        exact hcur ch this
      · exact ih [] (by simp) l h1 ch hch
    · rw [if_neg hc] at hl
      refine ih (c :: cur) ?_ l hl ch hch
      intro ch' hch'
      rcases List.mem_cons.mp hch' with h1 | h1
      · rw [h1]
        exact hc
      · exact hcur ch' h1

/-- Lines of a script contain no newline character. -/
lemma goLines_no_newline (s : String) :
    ∀ l ∈ goLines s, ∀ ch ∈ l.data, ch ≠ '\x0a' :=
  linesAux_no_newline s.data [] (by simp)

/-- The first line of a statement string (text up to the first newline). -/
def firstLineOf (s : String) : String :=
  String.mk (s.data.takeWhile (fun ch => ch != '\x0a'))

/-- A suffix test on an empty string fails for `;`. -/
lemma goHasSuffix_empty_semi (s : String) (h : s.data = []) :
    goHasSuffix s (";") = false := by
  unfold goHasSuffix
  rw [h]
  rfl

/-- A suffix test on an empty string fails for `END;`. -/
lemma goHasSuffix_empty_end (s : String) (h : s.data = []) :
    goHasSuffix s ("END;") = false := by
  unfold goHasSuffix
  rw [h]
  rfl

/-- Taking up to the first newline ignores everything after an inserted
newline. -/
lemma takeWhile_append_newline :
    ∀ (a c : List Char),
      (a ++ '\x0a' :: c).takeWhile (fun ch => ch != '\x0a') =
        a.takeWhile (fun ch => ch != '\x0a') := by
  intro a c
  induction a with
  | nil => simp [List.takeWhile_cons]
  | cons x xs ih =>
    simp only [List.cons_append, List.takeWhile_cons]
    cases hx : (x != '\x0a') with
    | false => simp [hx]
    | true => simp [hx, ih]

/-- The invariant maintained by the splitter loop: an empty buffer is never
terminated, a non-empty buffer's trigger flag was decided from its first
line, and a terminated buffer ends with its mode's terminator. -/
def BuilderInv (b : StatementBuilder) : Prop :=
  (b.buffer.data.isEmpty = true → b.terminated = false) ∧
    (b.buffer.data.isEmpty = false →
      b.createTrigger = matchCreateTrigger (firstLineOf b.buffer)) ∧
    (b.terminated = true →
      (if b.createTrigger then goHasSuffix b.buffer ("END;")
        else goHasSuffix b.buffer (";")) = true)

/-- The fresh builder satisfies the invariant. -/
lemma BuilderInv_new : BuilderInv NewStatementBuilder := by
  refine ⟨fun _ => rfl, fun h => ?_, fun h => ?_⟩
  · simp [NewStatementBuilder] at h
  · simp [NewStatementBuilder] at h

/-- Lemma: `Append` preserves the invariant on newline-free input lines. -/
lemma Append_inv (b : StatementBuilder) (l : String)
    (hl : ∀ ch ∈ l.data, ch ≠ '\x0a') (hb : BuilderInv b) :
    BuilderInv (b.Append l) := by
  obtain ⟨h1, h2, h3⟩ := hb
  have hline : ∀ ch ∈ (goTrim l).data, ch ≠ '\x0a' :=
    fun ch hch => hl ch (mem_goTrim hch)
  unfold StatementBuilder.Append
  by_cases hbe : b.buffer.data.isEmpty
  · have hbd : b.buffer.data = [] := by simpa using hbe
    simp only [hbe, if_true]
    by_cases hle : (goTrim l).data.isEmpty
    · have hld : (goTrim l).data = [] := by simpa using hle
      refine ⟨fun _ => ?_, fun hne => ?_, fun ht => ?_⟩
      · rw [goHasSuffix_empty_end _ hld, goHasSuffix_empty_semi _ hld]
        simp
      · simp only [String.data_append, hbd, hld, List.append_nil,
          List.isEmpty_nil] at hne
        exact absurd hne (by decide)
      · rw [goHasSuffix_empty_end _ hld, goHasSuffix_empty_semi _ hld] at ht
        simp at ht
    · have hbuf : (b.buffer ++ goTrim l).data = (goTrim l).data := by
        rw [String.data_append, hbd]
        rfl
      refine ⟨fun hne => ?_, fun _ => ?_, fun ht => ?_⟩
      · rw [hbuf] at hne
        rw [hne] at hle
        simp at hle
      · have htw : (goTrim l).data.takeWhile (fun ch => ch != '\x0a') =
            (goTrim l).data :=
          List.takeWhile_eq_self_iff.mpr
            (fun ch hch => by simpa using hline ch hch)
        have hfl : firstLineOf (b.buffer ++ goTrim l) = goTrim l := by
          unfold firstLineOf
          rw [hbuf, htw]
        rw [hfl]
      · simp only
        cases hct : matchCreateTrigger (goTrim l) with
        | true =>
          simp only [hct, if_true] at ht ⊢
          exact goHasSuffix_append b.buffer _ _ ht
        | false =>
          simp only [hct, if_false, Bool.false_eq_true] at ht ⊢
          exact goHasSuffix_append b.buffer _ _ ht
  · have hbne : b.buffer.data.isEmpty = false := by simpa using hbe
    simp only [hbe, if_false, Bool.false_eq_true]
    have hdata : (b.buffer ++ "\x0a" ++ goTrim l).data =
        b.buffer.data ++ '\x0a' :: (goTrim l).data := by
      rw [String.data_append, String.data_append]
      simp
    refine ⟨fun hne => ?_, fun _ => ?_, fun ht => ?_⟩
    · rw [hdata] at hne
      simp at hne
    · have : firstLineOf (b.buffer ++ "\x0a" ++ goTrim l) =
          firstLineOf b.buffer := by
        unfold firstLineOf
        rw [hdata, takeWhile_append_newline]
      rw [this]
      exact h2 hbne
    · simp only
      cases hct : b.createTrigger with
      | true =>
        simp only [hct, if_true] at ht ⊢
        exact goHasSuffix_append (b.buffer ++ "\x0a") _ _ ht
      | false =>
        simp only [hct, if_false, Bool.false_eq_true] at ht ⊢
        exact goHasSuffix_append (b.buffer ++ "\x0a") _ _ ht

/-- Every statement the splitter loop emits is non-empty and ends with its
mode's terminator (`END;` in trigger mode, `;` otherwise), hence with `;`. -/
lemma StatementsAux_ok :
    ∀ (ls : List String) (b : StatementBuilder),
      (∀ l ∈ ls, ∀ ch ∈ l.data, ch ≠ '\x0a') →
      BuilderInv b →
      ∀ s ∈ StatementsAux ls b,
        s.data.isEmpty = false ∧
          (if matchCreateTrigger (firstLineOf s) then goHasSuffix s ("END;")
            else goHasSuffix s (";")) = true ∧
          goHasSuffix s (";") = true := by
  intro ls
  induction ls with
  | nil =>
    intro b _ _ s hs
    exact absurd hs (List.not_mem_nil s)
  | cons l rest ih =>
    intro b hls hb s hs
    have hbl := Append_inv b l (hls l (List.mem_cons_self l rest)) hb
    have hrest : ∀ l' ∈ rest, ∀ ch ∈ l'.data, ch ≠ '\x0a' :=
      fun l' hl' => hls l' (List.mem_cons_of_mem l hl')
    simp only [StatementsAux] at hs
    by_cases ht : (b.Append l).terminated = true
    · rw [if_pos ht] at hs
      rcases List.mem_cons.mp hs with h1 | h1
      · obtain ⟨g1, g2, g3⟩ := hbl
        have hterm := g3 ht
        have hne : (b.Append l).buffer.data.isEmpty = false := by
          by_contra hc
          rw [Bool.not_eq_false] at hc
          rw [g1 hc] at ht
          exact Bool.noConfusion ht
        have hct := g2 hne
        have hsb : s = (b.Append l).buffer := h1
        rw [hsb]
        refine ⟨hne, ?_, ?_⟩
        · rw [← hct]
          exact hterm
        · cases hc : (b.Append l).createTrigger with
          | true =>
            rw [hc, if_pos rfl] at hterm
            exact goHasSuffix_semi_of_end _ hterm
          | false =>
            rw [hc] at hterm
            simpa using hterm
      · exact ih NewStatementBuilder hrest BuilderInv_new s h1
    · rw [if_neg ht] at hs
      exact ih (b.Append l) hrest hbl s hs

/-- C8: the splitter never emits an unterminated trailing fragment — every
statement in `Statements script` is non-empty and ends with its mode's
terminator (`END;` when its first line matches the CREATE TRIGGER pattern,
otherwise `;`), so text after the last terminator at end of input is never
included in the returned sequence. -/
theorem C8_no_unterminated_fragment (script : String) (s : String)
    (hs : s ∈ Statements script) :
    s.data.isEmpty = false ∧
      (if matchCreateTrigger (firstLineOf s) then goHasSuffix s ("END;")
        else goHasSuffix s (";")) = true ∧
      goHasSuffix s (";") = true :=
  StatementsAux_ok (goLines script) NewStatementBuilder
    (goLines_no_newline script) BuilderInv_new s hs

/-- C8 witness: the script `A;` followed by an unterminated fragment `B`
yields exactly one statement, `A;`, and the theorem applies to it. -/
theorem C8_witness :
    ("A;").data.isEmpty = false ∧
      (if matchCreateTrigger (firstLineOf ("A;"))
        then goHasSuffix ("A;") ("END;") else goHasSuffix ("A;") (";")) = true ∧
      goHasSuffix ("A;") (";") = true :=
  C8_no_unterminated_fragment ("A;\x0aB") ("A;") (by decide)

/-- Newline-join of a list of lines (the shape of the builder's buffer). -/
def joinLines (ls : List String) : String :=
  match ls with
  | [] => ""
  | s :: t => t.foldl (fun b l => b ++ "\x0a" ++ l) s

/-- A line matching the CREATE TRIGGER pattern is non-empty. -/
lemma matchCreateTrigger_nonempty (s : String)
    (h : matchCreateTrigger s = true) : s.data.isEmpty = false := by
  by_contra hc
  rw [Bool.not_eq_false] at hc
  have hd : s.data = [] := by simpa using hc
  unfold matchCreateTrigger at h
  rw [hd] at h
  exact absurd h (by decide)

/-- In trigger mode with a non-empty buffer, the loop accumulates every line
that does not end in `END;`, emits the newline-joined buffer at the first
line that does, and resumes fresh on the remaining lines. -/
lemma triggerBody_accumulates :
    ∀ (body rest : List String) (last : String) (buf : String),
      buf.data.isEmpty = false →
      (∀ l ∈ body, goHasSuffix (goTrim l) ("END;") = false) →
      goHasSuffix (goTrim last) ("END;") = true →
      StatementsAux (body ++ last :: rest)
          { createTrigger := true, terminated := false, buffer := buf } =
        ((body.map goTrim ++ [goTrim last]).foldl
            (fun b l => b ++ "\x0a" ++ l) buf) ::
          StatementsAux rest NewStatementBuilder := by
  intro body
  induction body with
  | nil =>
    intro rest last buf hbuf _ hlast
    simp only [List.nil_append, StatementsAux, StatementBuilder.Append,
      hbuf, if_false, Bool.false_eq_true, if_true, hlast,
      StatementBuilder.Statement, List.map_nil, List.foldl]
  | cons x xs ih =>
    intro rest last buf hbuf hbody hlast
    have hx : goHasSuffix (goTrim x) ("END;") = false :=
      hbody x (List.mem_cons_self x xs)
    have hxs : ∀ l ∈ xs, goHasSuffix (goTrim l) ("END;") = false :=
      fun l hl => hbody l (List.mem_cons_of_mem x hl)
    have hbuf2 : (buf ++ "\x0a" ++ goTrim x).data.isEmpty = false := by
      rw [String.data_append, String.data_append]
      simp
    simp only [List.cons_append, StatementsAux, StatementBuilder.Append,
      hbuf, if_false, Bool.false_eq_true, if_true, hx,
      StatementBuilder.Statement, List.map_cons, List.foldl]
    exact ih rest last (buf ++ "\x0a" ++ goTrim x) hbuf2 hxs hlast

/-- C9: when the first line of a fresh statement matches the
CREATE [TEMP|TEMPORARY] TRIGGER pattern, the splitter accumulates lines
until one ends with literal `END;` — a line ending with only `;` does not
terminate it — and emits exactly one statement: the newline-joined,
individually-trimmed lines from the CREATE TRIGGER line through the `END;`
line, then continues fresh on the remaining lines. -/
theorem C9_trigger_block (ct : String) (body rest : List String)
    (last : String)
    (hct : matchCreateTrigger (goTrim ct) = true)
    (hctNoEnd : goHasSuffix (goTrim ct) ("END;") = false)
    (hbody : ∀ l ∈ body, goHasSuffix (goTrim l) ("END;") = false)
    (hlast : goHasSuffix (goTrim last) ("END;") = true) :
    StatementsAux (ct :: (body ++ last :: rest)) NewStatementBuilder =
      joinLines (goTrim ct :: (body.map goTrim ++ [goTrim last])) ::
        StatementsAux rest NewStatementBuilder := by
  have hne : (goTrim ct).data.isEmpty = false := matchCreateTrigger_nonempty _ hct
  have hea : ("" ++ goTrim ct : String) = goTrim ct := by
    apply String.ext
    rw [String.data_append]
    rfl
  simp only [StatementsAux, StatementBuilder.Append, NewStatementBuilder,
    List.isEmpty_nil, if_true, hct, hctNoEnd, Bool.false_eq_true, if_false]
  rw [hea]
  exact triggerBody_accumulates body rest last (goTrim ct) hne hbody hlast

/-- C9 witness: the repository's own trigger test vector
(src/unnamed/part_000, test "3"), applied through the theorem. -/
theorem C9_witness :
    StatementsAux
        ("CREATE TRIGGER IF NOT EXISTS stream_version AFTER INSERT ON events" ::
          (["FOR EACH ROW", "BEGIN",
            "UPDATE streams SET version = NEW.streamIndex+1 WHERE id=NEW.streamID;"] ++
            "END;" :: []))
        NewStatementBuilder =
      joinLines
          (goTrim ("CREATE TRIGGER IF NOT EXISTS stream_version AFTER INSERT ON events") ::
            (["FOR EACH ROW", "BEGIN",
              "UPDATE streams SET version = NEW.streamIndex+1 WHERE id=NEW.streamID;"].map goTrim ++
              [goTrim ("END;")])) ::
        StatementsAux [] NewStatementBuilder :=
  C9_trigger_block
    ("CREATE TRIGGER IF NOT EXISTS stream_version AFTER INSERT ON events")
    ["FOR EACH ROW", "BEGIN",
      "UPDATE streams SET version = NEW.streamIndex+1 WHERE id=NEW.streamID;"]
    [] ("END;") (by decide) (by decide) (by decide) (by decide)

/-- Version of the last sequential record of a batch, with a default. -/
def lastV : List Migration → String → String
  | [], l => l
  | r :: t, _ => lastV t r.version

/-- The registry's sequential migrations are in non-decreasing numeric
version order (each at most all later ones). -/
def sortedByVersion : List Migration → Bool
  | [] => true
  | g :: t => t.all (fun g' => LEQ g.version g'.version) && sortedByVersion t

/-- The registry's repeatable migrations carry pairwise distinct
descriptions (the uniqueness the spec assumes). -/
def distinctDescriptions : List Migration → Bool
  | [] => true
  | g :: t =>
    t.all (fun g' => !(g'.description == g.description)) &&
      distinctDescriptions t

lemma LEQ_iff (a b : String) :
    LEQ a b = true ↔ parseInt64 a ≤ parseInt64 b := by
  simp [LEQ]

lemma LEQ_trans {a b c : String} (h1 : LEQ a b = true) (h2 : LEQ b c = true) :
    LEQ a c = true :=
  (LEQ_iff a c).mpr (le_trans ((LEQ_iff a b).mp h1) ((LEQ_iff b c).mp h2))

lemma LEQ_refl (a : String) : LEQ a a = true :=
  (LEQ_iff a a).mpr le_rfl

lemma LEQ_of_not (a b : String) (h : ¬ LEQ a b = true) : LEQ b a = true := by
  rw [LEQ_iff] at h ⊢
  omega

/-- The default argument of `lastV` is irrelevant on non-empty batches. -/
lemma lastV_default_irrel :
    ∀ (L : List Migration) (x y : String), L ≠ [] → lastV L x = lastV L y := by
  intro L x y h
  cases L with
  | nil => exact absurd rfl h
  | cons r t => rfl

/-- On a non-empty batch, `lastV` is the version of one of its records. -/
lemma lastV_mem :
    ∀ (L : List Migration) (x : String), L ≠ [] →
      ∃ r ∈ L, lastV L x = r.version := by
  intro L
  induction L with
  | nil =>
    intro x h
    exact absurd rfl h
  | cons r t ih =>
    intro x _
    cases t with
    | nil =>
      exact ⟨r, List.mem_cons_self r [], rfl⟩
    | cons r2 t2 =>
      obtain ⟨r', hr', hv⟩ := ih r.version (List.cons_ne_nil r2 t2)
      exact ⟨r', List.mem_cons_of_mem r hr', hv⟩

/-- The scan splits over an appended history. -/
lemma scanHistory_append :
    ∀ (a b : List Migration) (rank : Int) (last : String)
      (cs : String → Option String),
      scanHistory (a ++ b) rank last cs =
        match scanHistory a rank last cs with
        | Except.error e => Except.error e
        | Except.ok p => scanHistory b p.1 p.2.1 p.2.2 := by
  intro a
  induction a with
  | nil =>
    intro b rank last cs
    simp [scanHistory]
  | cons g t ih =>
    intro b rank last cs
    by_cases hg : g.IsRepeatable
    · simp only [List.cons_append, scanHistory, hg, if_true]
      exact ih b g.rank last _
    · rw [Bool.not_eq_true] at hg
      by_cases hgf : g.status = StatusFailed
      · simp [scanHistory, hg, hgf]
      · by_cases hgs : g.status = StatusSuccess
        · simp only [List.cons_append, scanHistory, hg, hgf, hgs,
            Bool.false_eq_true, if_false, if_true]
          exact ih b g.rank g.version cs
        · simp [scanHistory, hg, hgf, hgs]

/-- Scanning a batch of successful sequential records succeeds, moves
`lastInstalled` to the batch's last version, and leaves the checksum map
untouched. -/
lemma scanHistory_seq_success :
    ∀ (L : List Migration) (rank : Int) (last : String)
      (cs : String → Option String),
      (∀ r ∈ L, r.IsRepeatable = false ∧ r.status = StatusSuccess) →
      ∃ r2, scanHistory L rank last cs = Except.ok (r2, lastV L last, cs) := by
  intro L
  induction L with
  | nil =>
    intro rank last cs _
    exact ⟨rank, rfl⟩
  | cons a t ih =>
    intro rank last cs h
    obtain ⟨ha, has⟩ := h a (List.mem_cons_self a t)
    have haf : ¬(a.status = StatusFailed) := by
      rw [has]
      decide
    obtain ⟨r2, hr2⟩ := ih a.rank a.version cs
      (fun r hr => h r (List.mem_cons_of_mem a hr))
    refine ⟨r2, ?_⟩
    simp only [scanHistory, ha, haf, has, Bool.false_eq_true, if_false,
      if_true]
    exact hr2

/-- Scanning a batch of repeatable records succeeds and leaves
`lastInstalled` untouched. -/
lemma scanHistory_rep_ok :
    ∀ (L : List Migration) (rank : Int) (last : String)
      (cs : String → Option String),
      (∀ r ∈ L, r.IsRepeatable = true) →
      ∃ r2 c2, scanHistory L rank last cs = Except.ok (r2, last, c2) := by
  intro L
  induction L with
  | nil =>
    intro rank last cs _
    exact ⟨rank, cs, rfl⟩
  | cons a t ih =>
    intro rank last cs h
    have ha := h a (List.mem_cons_self a t)
    obtain ⟨r2, c2, hr2⟩ := ih a.rank last
      (fun d => if d = a.description then some a.checksum else cs d)
      (fun r hr => h r (List.mem_cons_of_mem a hr))
    refine ⟨r2, c2, ?_⟩
    simp only [scanHistory, ha, if_true]
    exact hr2

/-- No record with the description means no recorded checksum for it. -/
lemma lastRC_none :
    ∀ (L : List Migration) (d : String),
      (∀ r ∈ L, r.description ≠ d) → lastRecordedChecksum L d = none := by
  intro L
  induction L with
  | nil =>
    intro d _
    rfl
  | cons a t ih =>
    intro d h
    have hbeq : (a.description == d) = false :=
      beq_eq_false_iff_ne.mpr (h a (List.mem_cons_self a t))
    simp only [lastRecordedChecksum,
      ih d (fun r hr => h r (List.mem_cons_of_mem a hr)), hbeq,
      Bool.and_false, if_false]
    simp

/-- If every sequential migration is already covered, the sequential loop
does nothing. -/
lemma installPending_skipAll (sp : Support) :
    ∀ (migs : List Migration) (db : DBState) (rank : Int) (last : String),
      (∀ g ∈ migs, LEQ g.version last = true) →
      installPending sp db migs rank last = (db, rank, none) := by
  intro migs
  induction migs with
  | nil =>
    intro db rank last _
    rfl
  | cons g rest ih =>
    intro db rank last h
    simp only [installPending, h g (List.mem_cons_self g rest), if_true]
    exact ih db rank last (fun g' hg' => h g' (List.mem_cons_of_mem g hg'))

/-- If every repeatable migration's checksum is already recorded, the
repeatable loop does nothing. -/
lemma installRepeatable_skipAll (sp : Support) :
    ∀ (migs : List Migration) (db : DBState) (rank : Int)
      (cs : String → Option String),
      (∀ g ∈ migs, cs g.description = some g.checksum) →
      installRepeatable sp db migs rank cs = (db, rank, none) := by
  intro migs
  induction migs with
  | nil =>
    intro db rank cs _
    rfl
  | cons g rest ih =>
    intro db rank cs h
    simp only [installRepeatable, h g (List.mem_cons_self g rest), if_true]
    exact ih db rank cs (fun g' hg' => h g' (List.mem_cons_of_mem g hg'))

/-- Setting an already-set existence flag is the identity. -/
lemma setTable_eq (x : DBState) (h : x.tableExists = true) :
    ({ x with tableExists := true } : DBState) = x := by
  cases x with
  | mk a b c d =>
    simp only at h
    rw [h]

/-- Decomposition of a clean sequential-loop run under a version-sorted
registry: the new rows are successful sequential copies of registered
migrations, and afterwards every registered version is at most the new
`lastInstalled` (the version of the last row added, or the old bound). -/
lemma installPending_none_decomp :
    ∀ (migs : List Migration) (db : DBState) (rank : Int) (last : String)
      (db' : DBState) (rank' : Int),
      (∀ g ∈ migs, g.IsRepeatable = false) →
      sortedByVersion migs = true →
      installPending noFaults db migs rank last = (db', rank', none) →
      ∃ added : List Migration,
        db'.history = db.history ++ added ∧
        db'.tableExists = db.tableExists ∧
        (∀ r ∈ added, r.IsRepeatable = false ∧ r.status = StatusSuccess) ∧
        (∀ r ∈ added, ∃ g, g ∈ migs ∧ r.version = g.version) ∧
        LEQ last (lastV added last) = true ∧
        (∀ g ∈ migs, LEQ g.version (lastV added last) = true) := by
  intro migs
  induction migs with
  | nil =>
    intro db rank last db' rank' _ _ hp
    simp only [installPending, Prod.mk.injEq] at hp
    obtain ⟨h1, h2⟩ := hp
    refine ⟨[], ?_, ?_, ?_, ?_, LEQ_refl last, ?_⟩
    · rw [← h1, List.append_nil]
    · rw [← h1]
    · intro r hr
      exact absurd hr (List.not_mem_nil r)
    · intro r hr
      exact absurd hr (List.not_mem_nil r)
    · intro g hg
      exact absurd hg (List.not_mem_nil g)
  | cons g rest ih =>
    intro db rank last db' rank' hseq hsort hp
    have hgseq : g.IsRepeatable = false := hseq g (List.mem_cons_self g rest)
    have hrseq : ∀ g' ∈ rest, g'.IsRepeatable = false :=
      fun g' h => hseq g' (List.mem_cons_of_mem g h)
    simp only [sortedByVersion, Bool.and_eq_true, List.all_eq_true] at hsort
    obtain ⟨hall, hsort'⟩ := hsort
    by_cases hle : LEQ g.version last = true
    · simp only [installPending, hle, if_true] at hp
      obtain ⟨added, a1, a2, a3, a4, a5, a6⟩ :=
        ih db rank last db' rank' hrseq hsort' hp
      refine ⟨added, a1, a2, a3, ?_, a5, ?_⟩
      · intro r hr
        obtain ⟨g', hg', hv⟩ := a4 r hr
        exact ⟨g', List.mem_cons_of_mem g hg', hv⟩
      · intro g' hg'
        rcases List.mem_cons.mp hg' with h | h
        · rw [h]
          exact LEQ_trans hle a5
        · exact a6 g' h
    · simp only [installPending, hle, if_false, Bool.false_eq_true] at hp
      rcases hexec : g.exec with _ | res
      · rw [hexec] at hp
        rw [install_noexec noFaults db
          { g with rank := rank + 1, exec := none } rfl] at hp
        simp at hp
      · rcases res with _ | e
        · rw [hexec] at hp
          rw [install_success_effect rfl db
            { g with rank := rank + 1, exec := some none } rfl] at hp
          simp only at hp
          obtain ⟨added', a1, a2, a3, a4, a5, a6⟩ :=
            ih _ (rank + 1) last db' rank' hrseq hsort' hp
          simp only at a1 a2
          refine ⟨{ g with
              rank := rank + 1, date := db.clock, executionTime := 0,
              status := StatusSuccess, exec := none } :: added',
            ?_, a2, ?_, ?_, ?_, ?_⟩
          · rw [a1]
            simp
          · intro r hr
            rcases List.mem_cons.mp hr with h | h
            · rw [h]
              exact ⟨by simpa [Migration.IsRepeatable] using hgseq, rfl⟩
            · exact a3 r h
          · intro r hr
            rcases List.mem_cons.mp hr with h | h
            · exact ⟨g, List.mem_cons_self g rest, by rw [h]⟩
            · obtain ⟨g', hg', hv⟩ := a4 r h
              exact ⟨g', List.mem_cons_of_mem g hg', hv⟩
          · show LEQ last (lastV added' g.version) = true
            cases haL : added' with
            | nil => exact LEQ_of_not _ _ hle
            | cons r2 t2 =>
              rw [lastV_default_irrel (r2 :: t2) g.version last
                (List.cons_ne_nil r2 t2)]
              rw [haL] at a5
              exact a5
          · intro g' hg'
            show LEQ g'.version (lastV added' g.version) = true
            rcases List.mem_cons.mp hg' with h | h
            · rw [h]
              cases haL : added' with
              | nil => exact LEQ_refl g.version
              | cons r2 t2 =>
                rw [lastV_default_irrel (r2 :: t2) g.version last
                  (List.cons_ne_nil r2 t2)]
                obtain ⟨r', hr', hv⟩ :=
                  lastV_mem (r2 :: t2) last (List.cons_ne_nil r2 t2)
                rw [hv]
                rw [haL] at a4
                obtain ⟨g'', hg'', hv2⟩ := a4 r' hr'
                rw [hv2]
                exact hall g'' hg''
            · cases haL : added' with
              | nil =>
                rw [haL] at a6
                exact LEQ_trans (a6 g' h) (LEQ_of_not _ _ hle)
              | cons r2 t2 =>
                rw [lastV_default_irrel (r2 :: t2) g.version last
                  (List.cons_ne_nil r2 t2)]
                rw [haL] at a6
                exact a6 g' h
        · rw [hexec] at hp
          rw [install_fail_effect rfl db
            { g with rank := rank + 1, exec := some (some e) } e rfl] at hp
          simp at hp

/-- Decomposition of a clean repeatable-loop run under distinct
descriptions: the new rows are repeatable copies of registered migrations,
and afterwards the last-recorded checksum (new rows overriding the incoming
map) of every registered description equals that migration's checksum. -/
lemma installRepeatable_none_decomp :
    ∀ (migs : List Migration) (db : DBState) (rank : Int)
      (cs : String → Option String) (db' : DBState) (rank' : Int),
      (∀ g ∈ migs, g.IsRepeatable = true) →
      distinctDescriptions migs = true →
      installRepeatable noFaults db migs rank cs = (db', rank', none) →
      ∃ added : List Migration,
        db'.history = db.history ++ added ∧
        db'.tableExists = db.tableExists ∧
        (∀ r ∈ added, r.IsRepeatable = true) ∧
        (∀ r ∈ added, ∃ g, g ∈ migs ∧ r.description = g.description) ∧
        (∀ g ∈ migs,
          (match lastRecordedChecksum added g.description with
            | some x => some x
            | none => cs g.description) = some g.checksum) := by
  intro migs
  induction migs with
  | nil =>
    intro db rank cs db' rank' _ _ hp
    simp only [installRepeatable, Prod.mk.injEq] at hp
    obtain ⟨h1, h2⟩ := hp
    refine ⟨[], ?_, ?_, ?_, ?_, ?_⟩
    · rw [← h1, List.append_nil]
    · rw [← h1]
    · intro r hr
      exact absurd hr (List.not_mem_nil r)
    · intro r hr
      exact absurd hr (List.not_mem_nil r)
    · intro g hg
      exact absurd hg (List.not_mem_nil g)
  | cons g rest ih =>
    intro db rank cs db' rank' hrep hdist hp
    have hgrep : g.IsRepeatable = true := hrep g (List.mem_cons_self g rest)
    have hrrep : ∀ g' ∈ rest, g'.IsRepeatable = true :=
      fun g' h => hrep g' (List.mem_cons_of_mem g h)
    simp only [distinctDescriptions, Bool.and_eq_true, List.all_eq_true] at hdist
    obtain ⟨halld, hdist'⟩ := hdist
    have hne : ∀ g' ∈ rest, g'.description ≠ g.description := by
      intro g' hg'
      have := halld g' hg'
      simpa using this
    by_cases hcs : cs g.description = some g.checksum
    · simp only [installRepeatable, hcs, if_true] at hp
      obtain ⟨added, a1, a2, a3, a4, a5⟩ :=
        ih db rank cs db' rank' hrrep hdist' hp
      refine ⟨added, a1, a2, a3, ?_, ?_⟩
      · intro r hr
        obtain ⟨g', hg', hv⟩ := a4 r hr
        exact ⟨g', List.mem_cons_of_mem g hg', hv⟩
      · intro g' hg'
        rcases List.mem_cons.mp hg' with h | h
        · rw [h]
          have hnone : lastRecordedChecksum added g.description = none := by
            apply lastRC_none
            intro r hr
            obtain ⟨g'', hg'', hv⟩ := a4 r hr
            rw [hv]
            exact hne g'' hg''
          rw [hnone]
          exact hcs
        · exact a5 g' h
    · simp only [installRepeatable, hcs, if_false] at hp
      rcases hexec : g.exec with _ | res
      · rw [hexec] at hp
        rw [install_noexec noFaults db
          { g with rank := rank + 1, exec := none } rfl] at hp
        simp at hp
      · rcases res with _ | e
        · rw [hexec] at hp
          rw [install_success_effect rfl db
            { g with rank := rank + 1, exec := some none } rfl] at hp
          simp only at hp
          obtain ⟨added', a1, a2, a3, a4, a5⟩ :=
            ih _ (rank + 1) cs db' rank' hrrep hdist' hp
          simp only at a1 a2
          refine ⟨{ g with
              rank := rank + 1, date := db.clock, executionTime := 0,
              status := StatusSuccess, exec := none } :: added',
            ?_, a2, ?_, ?_, ?_⟩
          · rw [a1]
            simp
          · intro r hr
            rcases List.mem_cons.mp hr with h | h
            · rw [h]
              simpa [Migration.IsRepeatable] using hgrep
            · exact a3 r h
          · intro r hr
            rcases List.mem_cons.mp hr with h | h
            · exact ⟨g, List.mem_cons_self g rest, by rw [h]⟩
            · obtain ⟨g', hg', hv⟩ := a4 r h
              exact ⟨g', List.mem_cons_of_mem g hg', hv⟩
          · intro g' hg'
            rcases List.mem_cons.mp hg' with h | h
            · rw [h]
              have hnone : lastRecordedChecksum added' g.description = none := by
                apply lastRC_none
                intro r hr
                obtain ⟨g'', hg'', hv⟩ := a4 r hr
                rw [hv]
                exact hne g'' hg''
              simp only [lastRecordedChecksum, hnone]
              have hself : ((({ g with
                  rank := rank + 1, date := db.clock, executionTime := 0,
                  status := StatusSuccess,
                  exec := none } : Migration).IsRepeatable &&
                  ({ g with
                    rank := rank + 1, date := db.clock, executionTime := 0,
                    status := StatusSuccess,
                    exec := none } : Migration).description ==
                    g.description) : Bool) = true := by
                simp only [Bool.and_eq_true]
                constructor
                · simpa [Migration.IsRepeatable] using hgrep
                · simp
              rw [hself]
              simp
            · have hgd : g.description ≠ g'.description :=
                fun hc => (hne g' h) hc.symm
              have ha5 := a5 g' h
              simp only [lastRecordedChecksum]
              cases hlrc : lastRecordedChecksum added' g'.description with
              | some x =>
                rw [hlrc] at ha5
                simpa using ha5
              | none =>
                rw [hlrc] at ha5
                have hbeq : ((({ g with
                    rank := rank + 1, date := db.clock, executionTime := 0,
                    status := StatusSuccess,
                    exec := none } : Migration).description ==
                    g'.description) : Bool) = false := by
                  simpa using hgd
                simp only [hbeq, Bool.and_false, if_false]
                simpa using ha5
        · rw [hexec] at hp
          rw [install_fail_effect rfl db
            { g with rank := rank + 1, exec := some (some e) } e rfl] at hp
          simp at hp

/-- C1 (amended): with the sequential registrations in non-decreasing
numeric version order and the repeatable descriptions pairwise distinct, a
first `Migrate` that returns nil leaves the database in a state where a
second `Migrate` with the same registry performs zero new installs (state
unchanged: no record added, nothing executed) and returns nil. -/
theorem C1_second_migrate_noop (m : Migrator) (db : DBState)
    (hseq : ∀ g ∈ m.migrations, g.IsRepeatable = false)
    (hrep : ∀ g ∈ m.repeatable, g.IsRepeatable = true)
    (hsort : sortedByVersion m.migrations = true)
    (hdist : distinctDescriptions m.repeatable = true)
    (h1 : (Migrate noFaults m db).2 = none) :
    Migrate noFaults m (Migrate noFaults m db).1 =
      ((Migrate noFaults m db).1, none) := by
  rw [Migrate_noFaults_eq m db] at h1
  set dbt : DBState := { db with tableExists := true } with hdbt
  unfold migrateBody at h1
  simp only [ListMigrations_noFaults] at h1
  cases hscan : scanHistory dbt.history 0 VersionNone (fun _ => none) with
  | error e =>
    rw [hscan] at h1
    simp at h1
  | ok p =>
    rcases p with ⟨r0, l0, c0⟩
    simp only [hscan] at h1
    set ipr := installPending noFaults dbt m.migrations r0 l0 with hipr
    cases hp1 : ipr.2.2 with
    | some e =>
      rw [hp1] at h1
      simp at h1
    | none =>
      simp only [hp1] at h1
      set irr := installRepeatable noFaults ipr.1 m.repeatable ipr.2.1 c0
        with hirr
      have hIP : installPending noFaults dbt m.migrations r0 l0 =
          (ipr.1, ipr.2.1, none) := by
        rw [← hipr, ← hp1]
      obtain ⟨addedS, s1, s2, s3, s4, s5, s6⟩ :=
        installPending_none_decomp m.migrations dbt r0 l0 ipr.1 ipr.2.1
          hseq hsort hIP
      have hIR : installRepeatable noFaults ipr.1 m.repeatable ipr.2.1 c0 =
          (irr.1, irr.2.1, none) := by
        rw [← hirr, ← h1]
      obtain ⟨addedR, t1, t2, t3, t4, t5⟩ :=
        installRepeatable_none_decomp m.repeatable ipr.1 ipr.2.1 c0
          irr.1 irr.2.1 hrep hdist hIR
      have hM : Migrate noFaults m db = (irr.1, none) := by
        rw [Migrate_noFaults_eq m db, ← hdbt]
        unfold migrateBody
        simp only [ListMigrations_noFaults, hscan, ← hipr, hp1, ← hirr, h1]
      rw [hM]
      simp only
      have htE : irr.1.tableExists = true := by
        rw [t2, s2, hdbt]
      rw [Migrate_noFaults_eq m irr.1, setTable_eq irr.1 htE]
      unfold migrateBody
      simp only [ListMigrations_noFaults]
      have hh : irr.1.history = (dbt.history ++ addedS) ++ addedR := by
        rw [t1, s1]
      rw [hh, scanHistory_append, scanHistory_append, hscan]
      simp only
      obtain ⟨rA, hA⟩ := scanHistory_seq_success addedS r0 l0 c0 s3
      rw [hA]
      simp only
      obtain ⟨rB, cB, hB⟩ :=
        scanHistory_rep_ok addedR rA (lastV addedS l0) c0 t3
      rw [hB]
      simp only
      have hcB := scanHistory_cs_char addedR rA (lastV addedS l0) c0
        (rB, lastV addedS l0, cB) hB
      simp only at hcB
      rw [installPending_skipAll noFaults m.migrations irr.1 rB
        (lastV addedS l0) s6]
      simp only
      have hskipR : ∀ g ∈ m.repeatable, cB g.description = some g.checksum := by
        intro g hg
        rw [hcB g.description]
        exact t5 g hg
      rw [installRepeatable_skipAll noFaults m.repeatable irr.1 rB cB hskipR]

/-- Concrete migration of version "2", registered first, for C1. -/
def c1MigV2 : Migration :=
  { rank := 0, version := "2", description := "a", type := TypeGo,
    checksum := "", date := 0, executionTime := 0, status := "",
    exec := some none }

/-- Concrete migration of version "1", registered second, for C1. -/
def c1MigV1 : Migration :=
  { rank := 0, version := "1", description := "b", type := TypeGo,
    checksum := "", date := 0, executionTime := 0, status := "",
    exec := some none }

/-- Registry registering "2" before "1" (allowed by the registry), for C1. -/
def c1Registry : Migrator :=
  { migrations := [c1MigV2, c1MigV1], repeatable := [] }

/-- Concrete empty database for C1. -/
def c1Db : DBState :=
  { tableExists := false, history := [], executed := [], clock := 0 }

/-- C1 counterexample: with versions registered out of order ("2" then "1"),
the first `Migrate` returns nil after installing both, but the second call
installs version "2" again (history grows from 2 to 3 rows), refuting the
claim for arbitrary registries. -/
theorem C1_counterexample :
    (Migrate noFaults c1Registry c1Db).2 = none ∧
      (Migrate noFaults c1Registry c1Db).1.history.length = 2 ∧
      (Migrate noFaults c1Registry
          (Migrate noFaults c1Registry c1Db).1).1.history.length = 3 := by
  refine ⟨by decide, by decide, by decide⟩

/-- Concrete repeatable migration for the C1 witness. -/
def c1wRep : Migration :=
  { rank := 0, version := VersionRepeatable, description := "r1",
    type := TypeSQL, checksum := "abc", date := 0, executionTime := 0,
    status := "", exec := some none }

/-- Concrete sorted registry (sequential "1" then "2", one repeatable) for
the C1 witness. -/
def c1wRegistry : Migrator :=
  { migrations := [c1MigV1, c1MigV2], repeatable := [c1wRep] }

/-- Concrete empty database for the C1 witness. -/
def c1wDb : DBState :=
  { tableExists := false, history := [], executed := [], clock := 0 }

/-- C1 witness: the amended idempotence theorem at a sorted concrete
registry. -/
theorem C1_witness :
    Migrate noFaults c1wRegistry (Migrate noFaults c1wRegistry c1wDb).1 =
      ((Migrate noFaults c1wRegistry c1wDb).1, none) :=
  C1_second_migrate_noop c1wRegistry c1wDb (by decide) (by decide) (by decide)
    (by decide) (by decide)
